import Mathlib

/-!
Verification of the Brainstorm candidate-generation pipeline.

Strings are modelled as `List Char` (one entry per Unicode scalar).  The Go
source indexes strings by byte in a few classifier loops; on ASCII input bytes
and runes coincide, so theorems whose faithfulness depends on that
identification carry an explicit all-ASCII hypothesis.  Go `float64` ratio
comparisons against the literals 0.2, 0.25, 0.3, 0.35 and 0.8 are modelled as
exact rational comparisons (`5*a > b` etc.); IEEE division is correctly
rounded, so the two agree for every count below 2^50, far beyond any feasible
line length.
-/

/-- Go `unicode.IsSpace`: the White_Space code points. -/
def isGoSpace (c : Char) : Bool :=
  c.toNat = 32 || c.toNat = 9 || c.toNat = 10 || c.toNat = 0x0B ||
  c.toNat = 0x0C || c.toNat = 13 || c.toNat = 0x85 || c.toNat = 0xA0 ||
  c.toNat = 0x1680 ||
  (0x2000 ≤ c.toNat && c.toNat ≤ 0x200A) || c.toNat = 0x2028 ||
  c.toNat = 0x2029 || c.toNat = 0x202F || c.toNat = 0x205F || c.toNat = 0x3000

/-- Worker for `fields`: `cur` is the word currently being accumulated. -/
def fieldsAux (cur : List Char) : List Char → List (List Char)
  | [] => if cur = [] then [] else [cur]
  | c :: rest =>
    if isGoSpace c then
      if cur = [] then fieldsAux [] rest else cur :: fieldsAux [] rest
    else fieldsAux (cur ++ [c]) rest

/-- Go `strings.Fields`: split around runs of white space, no empty words. -/
def fields (s : List Char) : List (List Char) := fieldsAux [] s

/-- Go `strings.Join(list, string(sep))` for a one-character separator. -/
def joinWith (sep : Char) : List (List Char) → List Char
  | [] => []
  | [w] => w
  | w :: x :: ws => w ++ sep :: joinWith sep (x :: ws)

/-- Go `strings.ReplaceAll(s, string(t), "")` for a one-character pattern. -/
def removeChar (t : Char) (s : List Char) : List Char := s.filter (fun c => c ≠ t)

/-- Trim a maximal prefix of characters satisfying `p`. -/
def trimLeftWhile (p : Char → Bool) (s : List Char) : List Char := s.dropWhile p

/-- Trim a maximal suffix of characters satisfying `p`. -/
def trimRightWhile (p : Char → Bool) (s : List Char) : List Char :=
  (s.reverse.dropWhile p).reverse

/-- Go `strings.TrimSpace`. -/
def trimSpaceGo (s : List Char) : List Char :=
  trimRightWhile isGoSpace (trimLeftWhile isGoSpace s)

/-- The list of integers from `lo` to `hi` inclusive (empty when `hi < lo`),
the index sequence of a Go `for i := lo; i <= hi; i++` loop. -/
def intRange (lo hi : Int) : List Int :=
  (List.range (hi + 1 - lo).toNat).map (fun k : Nat => lo + (k : Int))

/-- The body of the inner loop of `generateNGrams` (mutate.go:78-85): join the
window with single spaces, `TrimSpace`, `TrimLeft " "`, then strip `.`, `,`
and `;`. -/
def mkNGram (window : List (List Char)) : List Char :=
  removeChar ';' (removeChar ',' (removeChar '.'
    (trimLeftWhile (fun c => c = ' ') (trimSpaceGo (joinWith ' ' window)))))

/-- `generateNGrams` (mutate.go:69-90): for each window size `i` from
`wordRangeStart` to `wordRangeEnd`, skipping sizes that are `<= 0` or exceed
the word count, emit every contiguous window of `i` words left to right. -/
def generateNGrams (text : List Char) (wordRangeStart wordRangeEnd : Int) :
    List (List Char) :=
  let words := fields text
  (intRange wordRangeStart wordRangeEnd).flatMap fun i =>
    if i ≤ 0 ∨ (words.length : Int) < i then []
    else (List.range (words.length + 1 - i.toNat)).map fun j =>
      mkNGram ((words.drop j).take i.toNat)

/-- Characters the n-gram stripping step keeps. -/
def keepPunct (c : Char) : Bool := !(c = '.' || c = ',' || c = ';')

theorem mem_intRange {lo hi i : Int} (h : i ∈ intRange lo hi) :
    lo ≤ i ∧ i ≤ hi := by
  simp only [intRange, List.mem_map, List.mem_range] at h
  obtain ⟨k, hk, rfl⟩ := h
  omega

theorem intRange_append (s m e : Int) (h1 : s ≤ m + 1) (h2 : m ≤ e) :
    intRange s e = intRange s m ++ intRange (m + 1) e := by
  have ha : (e + 1 - s).toNat = (m + 1 - s).toNat + (e - m).toNat := by omega
  have hb : (e + 1 - (m + 1)).toNat = (e - m).toNat := by omega
  simp only [intRange, ha, hb, List.range_add, List.map_append, List.map_map]
  congr 1
  apply List.map_congr_left
  intro k hk
  simp only [Function.comp_apply]
  push_cast
  omega

theorem mem_fieldsAux : ∀ (s cur : List Char),
    (∀ c ∈ cur, isGoSpace c = false) →
    ∀ w ∈ fieldsAux cur s, w ≠ [] ∧ ∀ c ∈ w, isGoSpace c = false := by
  intro s
  induction s with
  | nil =>
    intro cur hcur w hw
    simp only [fieldsAux] at hw
    split at hw
    · simp at hw
    · next h =>
      simp only [List.mem_singleton] at hw
      subst hw
      exact ⟨h, hcur⟩
  | cons c rest ih =>
    intro cur hcur w hw
    simp only [fieldsAux] at hw
    split at hw
    · split at hw
      · exact ih [] (by simp) w hw
      · next h =>
        rcases List.mem_cons.1 hw with rfl | hw'
        · exact ⟨h, hcur⟩
        · exact ih [] (by simp) w hw'
    · next hc =>
      refine ih (cur ++ [c]) ?_ w hw
      intro d hd
      rcases List.mem_append.1 hd with h1 | h1
      · exact hcur d h1
      · simp only [List.mem_singleton] at h1
        subst h1
        simpa using hc

theorem mem_fields {s w : List Char} (hw : w ∈ fields s) :
    w ≠ [] ∧ ∀ c ∈ w, isGoSpace c = false :=
  mem_fieldsAux s [] (by simp) w hw

theorem fieldsAux_no_space : ∀ (s : List Char),
    (∀ c ∈ s, isGoSpace c = false) → ∀ (cur : List Char),
    fieldsAux cur s = if cur ++ s = [] then [] else [cur ++ s] := by
  intro s
  induction s with
  | nil => intro _ cur; simp [fieldsAux]
  | cons c rest ih =>
    intro hs cur
    have hc : isGoSpace c = false := hs c (by simp)
    simp only [fieldsAux, hc, Bool.false_eq_true, if_false]
    rw [ih (fun d hd => hs d (by simp [hd])) (cur ++ [c])]
    simp

theorem fieldsAux_append_space (b : List Char) : ∀ (a : List Char),
    (∀ c ∈ a, isGoSpace c = false) → ∀ (cur : List Char),
    fieldsAux cur (a ++ ' ' :: b) =
      (if cur ++ a = [] then [] else [cur ++ a]) ++ fields b := by
  intro a
  induction a with
  | nil =>
    intro _ cur
    by_cases h : cur = [] <;> simp [fieldsAux, h, fields, isGoSpace]
  | cons c a' ih =>
    intro ha cur
    have hc : isGoSpace c = false := ha c (by simp)
    simp only [List.cons_append, fieldsAux, hc, Bool.false_eq_true, if_false,
      List.append_eq]
    rw [ih (fun d hd => ha d (by simp [hd])) (cur ++ [c])]
    simp

theorem fields_filter_joinWith (keep : Char → Bool) (hk : keep ' ' = true) :
    ∀ (ws : List (List Char)), (∀ w ∈ ws, ∀ c ∈ w, isGoSpace c = false) →
    fields ((joinWith ' ' ws).filter keep) =
      (ws.map (List.filter keep)).filter (fun w => !w.isEmpty) := by
  intro ws
  induction ws with
  | nil => intro _; simp [joinWith, fields, fieldsAux]
  | cons w tail ih =>
    intro hws
    cases tail with
    | nil =>
      have hw : ∀ c ∈ w.filter keep, isGoSpace c = false := by
        intro c hc
        exact hws w (by simp) c (List.mem_of_mem_filter hc)
      simp only [joinWith, List.map_cons, List.map_nil, List.filter_cons]
      rw [show fields (w.filter keep) = fieldsAux [] (w.filter keep) from rfl,
        fieldsAux_no_space (w.filter keep) hw []]
      by_cases h : w.filter keep = [] <;> simp [h, List.filter]
    | cons x tail' =>
      have hjoin : (joinWith ' ' (w :: x :: tail')).filter keep =
          w.filter keep ++ ' ' :: (joinWith ' ' (x :: tail')).filter keep := by
        simp [joinWith, List.filter_append, List.filter_cons, hk]
      have hw : ∀ c ∈ w.filter keep, isGoSpace c = false := by
        intro c hc
        exact hws w (by simp) c (List.mem_of_mem_filter hc)
      rw [hjoin, show fields (w.filter keep ++ ' ' ::
          (joinWith ' ' (x :: tail')).filter keep) =
          fieldsAux [] (w.filter keep ++ ' ' ::
          (joinWith ' ' (x :: tail')).filter keep) from rfl,
        fieldsAux_append_space _ (w.filter keep) hw []]
      rw [ih (fun v hv c hc => hws v (by simp [hv]) c hc)]
      by_cases h : w.filter keep = [] <;> simp [h]

theorem fields_joinWith (ws : List (List Char))
    (h : ∀ w ∈ ws, w ≠ [] ∧ ∀ c ∈ w, isGoSpace c = false) :
    fields (joinWith ' ' ws) = ws := by
  have h0 := fields_filter_joinWith (fun _ => true) rfl ws (fun w hw => (h w hw).2)
  have h1 : (joinWith ' ' ws).filter (fun _ => true) = joinWith ' ' ws :=
    List.filter_eq_self.2 (fun a _ => rfl)
  have h2 : ws.map (List.filter (fun _ => true)) = ws := by
    rw [List.map_congr_left (fun w _ => List.filter_eq_self.2 (fun a _ => rfl))]
    exact List.map_id ws
  rw [h1, h2] at h0
  rw [h0]
  refine List.filter_eq_self.2 ?_
  intro w hw
  simpa using (h w hw).1

theorem dropWhile_eq_self_of_head {p : Char → Bool} {s : List Char}
    (h : ∀ c, s.head? = some c → p c = false) : s.dropWhile p = s := by
  cases s with
  | nil => rfl
  | cons c rest => simp [List.dropWhile, h c rfl]

theorem joinWith_ne_nil (ws : List (List Char)) (h0 : ws ≠ [])
    (h : ∀ w ∈ ws, w ≠ []) : joinWith ' ' ws ≠ [] := by
  cases ws with
  | nil => exact absurd rfl h0
  | cons w tail =>
    cases tail with
    | nil => simpa [joinWith] using h w (by simp)
    | cons x tail' => simp [joinWith]

theorem joinWith_head? (w0 : List Char) (tail : List (List Char)) :
    (joinWith ' ' (w0 :: tail)).head? = w0.head?.or (some ' ') ∨
      (joinWith ' ' (w0 :: tail)).head? = w0.head? := by
  cases tail with
  | nil => right; rfl
  | cons x tail' => left; simp [joinWith]

theorem joinWith_getLast? : ∀ (ws : List (List Char)), ws ≠ [] →
    (∀ w ∈ ws, w ≠ []) →
    ∃ w ∈ ws, (joinWith ' ' ws).getLast? = w.getLast? := by
  intro ws
  induction ws with
  | nil => intro h0 _; exact absurd rfl h0
  | cons w tail ih =>
    intro _ h
    cases tail with
    | nil => exact ⟨w, by simp, rfl⟩
    | cons x tail' =>
      obtain ⟨w', hw', heq⟩ := ih (by simp) (fun v hv => h v (by simp [hv]))
      refine ⟨w', by simp [hw'], ?_⟩
      have hne : joinWith ' ' (x :: tail') ≠ [] :=
        joinWith_ne_nil _ (by simp) (fun v hv => h v (by simp [hv]))
      cases hj : joinWith ' ' (x :: tail') with
      | nil => exact absurd hj hne
      | cons a l =>
        rw [show joinWith ' ' (w :: x :: tail') =
          w ++ ' ' :: joinWith ' ' (x :: tail') from rfl, hj,
          List.getLast?_append, List.getLast?_cons_cons]
        rw [hj] at heq
        have hsome : (a :: l).getLast?.isSome := List.getLast?_isSome.2 (by simp)
        obtain ⟨v, hv⟩ := Option.isSome_iff_exists.1 hsome
        rw [hv] at heq ⊢
        rw [Option.or_some, heq]

theorem removeChar_punct (X : List Char) :
    removeChar ';' (removeChar ',' (removeChar '.' X)) = X.filter keepPunct := by
  simp only [removeChar, List.filter_filter]
  refine List.filter_congr ?_
  intro c _
  simp only [keepPunct]
  by_cases h1 : c = '.' <;> by_cases h2 : c = ',' <;> by_cases h3 : c = ';' <;>
    simp [h1, h2, h3]

theorem mkNGram_eq_filter (ws : List (List Char)) (h0 : ws ≠ [])
    (h : ∀ w ∈ ws, w ≠ [] ∧ ∀ c ∈ w, isGoSpace c = false) :
    mkNGram ws = (joinWith ' ' ws).filter keepPunct := by
  obtain ⟨w0, tail, rfl⟩ : ∃ w0 tail, ws = w0 :: tail := by
    cases ws with
    | nil => exact absurd rfl h0
    | cons a b => exact ⟨a, b, rfl⟩
  have hw0 : w0 ≠ [] := (h w0 (by simp)).1
  obtain ⟨c0, w0', rfl⟩ : ∃ c0 w0', w0 = c0 :: w0' := by
    cases w0 with
    | nil => exact absurd rfl hw0
    | cons a b => exact ⟨a, b, rfl⟩
  have hc0 : isGoSpace c0 = false := (h (c0 :: w0') (by simp)).2 c0 (by simp)
  have hhead : (joinWith ' ' ((c0 :: w0') :: tail)).head? = some c0 := by
    cases tail with
    | nil => rfl
    | cons x tail' => simp [joinWith]
  have hL : trimLeftWhile isGoSpace (joinWith ' ' ((c0 :: w0') :: tail)) =
      joinWith ' ' ((c0 :: w0') :: tail) := by
    refine dropWhile_eq_self_of_head ?_
    intro c hc
    rw [hhead] at hc
    cases hc
    exact hc0
  have hlast : ∃ w ∈ (c0 :: w0') :: tail,
      (joinWith ' ' ((c0 :: w0') :: tail)).getLast? = w.getLast? :=
    joinWith_getLast? _ (by simp) (fun v hv => (h v hv).1)
  have hR : trimRightWhile isGoSpace (joinWith ' ' ((c0 :: w0') :: tail)) =
      joinWith ' ' ((c0 :: w0') :: tail) := by
    obtain ⟨w, hwmem, heq⟩ := hlast
    have hwne : w ≠ [] := (h w hwmem).1
    refine Eq.trans (congrArg List.reverse ?_) (List.reverse_reverse _)
    refine dropWhile_eq_self_of_head ?_
    intro c hc
    rw [List.head?_reverse, heq] at hc
    exact (h w hwmem).2 c (List.mem_of_getLast?_eq_some hc)
  have hL2 : trimLeftWhile (fun c => c = ' ')
      (joinWith ' ' ((c0 :: w0') :: tail)) =
      joinWith ' ' ((c0 :: w0') :: tail) := by
    refine dropWhile_eq_self_of_head ?_
    intro c hc
    rw [hhead] at hc
    cases hc
    simp only [decide_eq_false_iff_not]
    intro hsp
    rw [hsp] at hc0
    simp [isGoSpace] at hc0
  rw [mkNGram, trimSpaceGo, hL, hR, hL2, removeChar_punct]

/-- C1 counterexample helper facts are stated inline in the theorem below. -/
theorem generateNGrams_mem_structure {text : List Char} {s e : Int}
    {g : List Char} (hg : g ∈ generateNGrams text s e) :
    ∃ ws : List (List Char), ws ≠ [] ∧ s ≤ (ws.length : Int) ∧
      ((ws.length : Int)) ≤ e ∧ (∀ w ∈ ws, w ≠ [] ∧ ∀ c ∈ w, isGoSpace c = false) ∧
      g = mkNGram ws := by
  simp only [generateNGrams, List.mem_flatMap] at hg
  obtain ⟨i, hi, hgi⟩ := hg
  obtain ⟨hlo, hhi⟩ := mem_intRange hi
  split at hgi
  · simp at hgi
  · next hcond =>
    push_neg at hcond
    obtain ⟨hpos, hle⟩ := hcond
    simp only [List.mem_map, List.mem_range] at hgi
    obtain ⟨j, hj, rfl⟩ := hgi
    set words := fields text with hwords
    refine ⟨(words.drop j).take i.toNat, ?_, ?_, ?_, ?_, rfl⟩
    · have : ((words.drop j).take i.toNat).length = i.toNat := by
        rw [List.length_take, List.length_drop]
        omega
      intro hnil
      rw [hnil] at this
      simp at this
      omega
    · have : ((words.drop j).take i.toNat).length = i.toNat := by
        rw [List.length_take, List.length_drop]
        omega
      rw [this]
      omega
    · have : ((words.drop j).take i.toNat).length = i.toNat := by
        rw [List.length_take, List.length_drop]
        omega
      rw [this]
      omega
    · intro w hw
      exact mem_fields (List.mem_of_mem_drop (List.mem_of_mem_take hw))

/-- C1 (amended): for every valid Config and input line, each n-gram produced
by `generateNGrams` arises from a window of between `NGramMin` and `NGramMax`
words; the joined window has exactly that many whitespace-delimited words
before the `.`, `,`, `;` stripping, so the word count after the stripping is
at most `NGramMax` but can fall below `NGramMin` (a word made entirely of the
stripped characters vanishes). -/
theorem generateNGrams_word_count (text : List Char) (s e : Int) (g : List Char)
    (hg : g ∈ generateNGrams text s e) :
    ((fields g).length : Int) ≤ e ∧
    ∃ ws : List (List Char), ws ≠ [] ∧ s ≤ (ws.length : Int) ∧
      ((ws.length : Int)) ≤ e ∧ g = mkNGram ws ∧
      (fields (joinWith ' ' ws)).length = ws.length := by
  obtain ⟨ws, hne, hlo, hhi, hgood, rfl⟩ := generateNGrams_mem_structure hg
  have hfil : fields (mkNGram ws) =
      (ws.map (List.filter keepPunct)).filter (fun w => !w.isEmpty) := by
    rw [mkNGram_eq_filter ws hne hgood]
    exact fields_filter_joinWith keepPunct rfl ws (fun w hw => (hgood w hw).2)
  constructor
  · rw [hfil]
    have h1 : ((ws.map (List.filter keepPunct)).filter
        (fun w => !w.isEmpty)).length ≤ ws.length := by
      calc ((ws.map (List.filter keepPunct)).filter
            (fun w => !w.isEmpty)).length
          ≤ (ws.map (List.filter keepPunct)).length :=
            List.length_filter_le _ _
        _ = ws.length := List.length_map _ _
    omega
  · exact ⟨ws, hne, hlo, hhi, rfl, by rw [fields_joinWith ws hgood]⟩

/-- C1 witness: instantiation of the amended theorem at a concrete input. -/
theorem generateNGrams_word_count_witness :
    ((fields "The".data).length : Int) ≤ 2 ∧
    ∃ ws : List (List Char), ws ≠ [] ∧ 1 ≤ (ws.length : Int) ∧
      ((ws.length : Int)) ≤ 2 ∧ "The".data = mkNGram ws ∧
      (fields (joinWith ' ' ws)).length = ws.length :=
  generateNGrams_word_count "The Quick Brown Fox".data 1 2 "The".data (by decide)

/-- C1 counterexample: with the valid Config `NGramMin = NGramMax = 1`, the
input line "." produces the single n-gram "" whose whitespace-delimited word
count is 0, below `NGramMin = 1`. -/
theorem generateNGrams_below_min :
    generateNGrams ".".data 1 1 = [[]] ∧
    (fields ([] : List Char)).length = 0 ∧ ¬ ((1 : Int) ≤ ((0 : Nat) : Int) ) := by
  refine ⟨by rfl, by rfl, by decide⟩

/-- C8: n-grams are emitted grouped by window size in ascending order (the
output for the size range `[s, e]` is the output for `[s, m]` followed by the
output for `[m+1, e]`), each size's windows in left-to-right position order;
in particular the line "The Quick Brown Fox" with range 1-2 yields exactly
the seven n-grams in the claimed order. -/
theorem generateNGrams_size_order (text : List Char) (s m e : Int)
    (h1 : s ≤ m + 1) (h2 : m ≤ e) :
    generateNGrams text s e =
      generateNGrams text s m ++ generateNGrams text (m + 1) e ∧
    generateNGrams "The Quick Brown Fox".data 1 2 =
      ["The".data, "Quick".data, "Brown".data, "Fox".data,
       "The Quick".data, "Quick Brown".data, "Brown Fox".data] := by
  refine ⟨?_, by rfl⟩
  simp only [generateNGrams]
  rw [intRange_append s m e h1 h2, List.flatMap_append]

/-- C8 witness: instantiation of the size-order theorem at concrete inputs. -/
theorem generateNGrams_size_order_witness :
    generateNGrams "a b".data 1 2 =
      generateNGrams "a b".data 1 1 ++ generateNGrams "a b".data 2 2 ∧
    generateNGrams "The Quick Brown Fox".data 1 2 =
      ["The".data, "Quick".data, "Brown".data, "Fox".data,
       "The Quick".data, "Quick Brown".data, "Brown Fox".data] :=
  generateNGrams_size_order "a b".data 1 1 2 (by decide) (by decide)

/-- ASCII vowels, `isVowel` (mutate_util.go:312-316). -/
def isVowel (c : Char) : Bool :=
  c = 'a' || c = 'e' || c = 'i' || c = 'o' || c = 'u' ||
  c = 'A' || c = 'E' || c = 'I' || c = 'O' || c = 'U'

/-- An ASCII letter. -/
def isAsciiLetter (c : Char) : Bool :=
  (65 ≤ c.toNat && c.toNat ≤ 90) || (97 ≤ c.toNat && c.toNat ≤ 122)

/-- Go `unicode.IsLetter`: exact on the ASCII range; characters above ASCII
are treated as letters, which is correct for the alphabetic scripts appearing
in the concrete inputs of this development. -/
def isLetterGo (c : Char) : Bool := isAsciiLetter c || 128 ≤ c.toNat

/-- Go `unicode.IsDigit` on the ASCII range. -/
def isDigitGo (c : Char) : Bool := c.isDigit

/-- Go `unicode.IsPunct(c) || unicode.IsSymbol(c)` on the ASCII range: the
printable non-alphanumeric, non-space characters.  (Characters above ASCII
never reach this predicate here because `isLetterGo` classifies them first.) -/
def isPunctSymbolGo (c : Char) : Bool :=
  (33 ≤ c.toNat && c.toNat ≤ 47) || (58 ≤ c.toNat && c.toNat ≤ 64) ||
  (91 ≤ c.toNat && c.toNat ≤ 96) || (123 ≤ c.toNat && c.toNat ≤ 126)

/-- `isLetterLike` (mutate_util.go:325-327): a letter or an apostrophe. -/
def isLetterLike (c : Char) : Bool := isLetterGo c || c = '\''

/-- Go `strings.ToLower` (exact on ASCII; the non-ASCII inputs used here are
already lower case). -/
def toLowerGo (s : List Char) : List Char := s.map Char.toLower

/-- `isAllDigitsOrSpecialChars` (mutate_util.go:166-177): no letter occurs. -/
def isAllDigitsOrSpecialChars (s : List Char) : Bool := !(s.any isLetterGo)

/-- `isWordLike` (mutate_util.go:216-230): the 5-character window has a vowel
and at most one character that is neither a vowel nor a letter. -/
def isWordLike (s : List Char) : Bool :=
  s.any isVowel && (s.countP (fun c => !isVowel c && !isLetterGo c)) ≤ 1

/-- Worker for `countSyllableLikeSegments`: counts characters that start a
maximal vowel run (a vowel whose predecessor is not a vowel), which is
exactly what the skip-nonletters / consume-consonants / count-and-consume-
vowels scan of mutate_util.go:512-539 increments once for. -/
def countVowelRunsAux : List Char → Bool → Nat
  | [], _ => 0
  | c :: rest, prevVowel =>
    if isVowel c then
      (if prevVowel then 0 else 1) + countVowelRunsAux rest true
    else countVowelRunsAux rest false

/-- `countSyllableLikeSegments` (mutate_util.go:512-539). -/
def countSyllableLikeSegments (s : List Char) : Nat :=
  countVowelRunsAux (toLowerGo s) false

/-- Maximal run of characters satisfying `p`, updating the best value each
time the current run is extended, as the run-tracking loop of
`looksLikeWordPattern` does. -/
def maxRunAux (p : Char → Bool) : List Char → Nat → Nat → Nat
  | [], _, best => best
  | c :: rest, cur, best =>
    if p c then maxRunAux p rest (cur + 1) (max best (cur + 1))
    else maxRunAux p rest 0 best

/-- Worker for `hasSuspiciousAlphaNumericRuns` carrying the current run
length and whether the run contains a letter and a digit. -/
def suspiciousAux : List Char → Nat → Bool → Bool → Bool
  | [], _, _, _ => false
  | c :: rest, runLen, hasL, hasD =>
    if isLetterGo c || isDigitGo c then
      if decide (6 ≤ runLen + 1) && (hasL || isLetterGo c) && (hasD || isDigitGo c)
      then true
      else suspiciousAux rest (runLen + 1) (hasL || isLetterGo c) (hasD || isDigitGo c)
    else suspiciousAux rest 0 false false

/-- `hasSuspiciousAlphaNumericRuns` (mutate_util.go:588-622). -/
def hasSuspiciousAlphaNumericRuns (s : List Char) : Bool :=
  suspiciousAux s 0 false false

/-- `hasHighNonLetterDensity` (mutate_util.go:549-578).  The Go comparison
`float64(nonLetter)/float64(total) > 0.3` is modelled exactly as the rational
comparison `10*nonLetter > 3*total`. -/
def hasHighNonLetterDensity (s : List Char) : Bool :=
  let letterCount := s.countP isLetterGo
  let nonLetterCount :=
    s.countP (fun c => !isLetterGo c && (isDigitGo c || isPunctSymbolGo c))
  if letterCount = 0 then true
  else if letterCount + nonLetterCount = 0 then false
  else decide (10 * nonLetterCount > 3 * (letterCount + nonLetterCount))

/-- The fixed deny-list of `containsTooManyUncommonClusters`
(mutate_util.go:430-434). -/
def uncommonBigrams : List (Char × Char) :=
  [('q','x'), ('x','q'), ('q','j'), ('j','q'), ('v','k'), ('k','j'),
   ('z','x'), ('x','k'), ('v','v'), ('w','w'), ('z','z'), ('q','q'),
   ('x','x'), ('k','k'), ('j','j'), ('g','f'), ('f','g'), ('v','d'),
   ('d','v'), ('q','z'), ('z','q'), ('h','j'), ('j','h')]

/-- `windowHasVowel` (mutate_util.go:494-502). -/
def windowHasVowel (w : List Char) : Bool := w.any isVowel

/-- The single pass of `containsTooManyUncommonClusters` over the lowercased
string, producing (letter-adjacent bigram count, deny-listed bigram count,
vowel-free 5-window count); a window is examined only at a position whose
adjacent pair are both letters and which has 4 more characters after it,
exactly as the Go loop guards `i+4 < len(lower)` inside the letter branch. -/
def clusterCountsAux : List Char → Nat × Nat × Nat
  | a :: b :: rest =>
    let t := clusterCountsAux (b :: rest)
    if isLetterGo a && isLetterGo b then
      (t.1 + 1,
       (if (a, b) ∈ uncommonBigrams then t.2.1 + 1 else t.2.1),
       (if decide (5 ≤ (a :: b :: rest).length) &&
           !windowHasVowel ((a :: b :: rest).take 5)
        then t.2.2 + 1 else t.2.2))
    else t
  | _ => (0, 0, 0)

/-- `containsTooManyUncommonClusters` (mutate_util.go:429-485).  The float
comparisons `uncommon/total > 0.2` and `noVowel/total > 0.35` are modelled as
`5*uncommon > total` and `20*noVowel > 7*total`. -/
def containsTooManyUncommonClusters (s : List Char) : Bool :=
  let lower := toLowerGo s
  let counts := clusterCountsAux lower
  if counts.1 = 0 then false
  else decide (5 * counts.2.1 > counts.1) ||
    decide (20 * counts.2.2 > 7 * counts.1)

/-- `looksLikeWordPattern` (mutate_util.go:337-419), written as the
conjunction of the negations of its early-return conditions.  The
vowel/consonant run loop skips characters that are not letter-like without
resetting the runs, so it is computed here on the sublist of letter-like
characters; the float comparisons `vowelRatio < 0.25` and `vowelRatio > 0.8`
are modelled as `4*vowels < letters` and `5*vowels > 4*letters`. -/
def looksLikeWordPattern (s : List Char) : Bool :=
  decide (s.length ≠ 0) &&
  !hasSuspiciousAlphaNumericRuns s &&
  !hasHighNonLetterDensity s &&
  !containsTooManyUncommonClusters s &&
  decide (countSyllableLikeSegments s ≠ 0) &&
  !(decide (8 ≤ s.length) && decide (countSyllableLikeSegments s < 2)) &&
  (let letters := s.filter isLetterLike
   decide (letters.length ≠ 0) &&
   !decide (4 * letters.countP isVowel < letters.length) &&
   !decide (5 * letters.countP isVowel > 4 * letters.length) &&
   !decide (4 < maxRunAux (fun c => !isVowel c) letters 0 0) &&
   !decide (3 < maxRunAux isVowel letters 0 0))

/-- `likelyContainsWords` (mutate_util.go:188-206): length at least 5, the
word-pattern heuristic, and at least one word-like 5-character window. -/
def likelyContainsWords (s : List Char) : Bool :=
  decide (¬ s.length < 5) && looksLikeWordPattern s &&
  decide (0 < (List.range (s.length - 4)).countP
    (fun i => isWordLike ((s.drop i).take 5)))

/-- The per-line accept condition of `filterLines` (mutate_util.go:132-155):
a line is kept only when it has a letter and `likelyContainsWords` holds. -/
def classifierAccepts (s : List Char) : Bool :=
  !(isAllDigitsOrSpecialChars s) && likelyContainsWords s

/-- Whether positions `i` and `i+1` of `l` both hold letters. -/
def pairIsLetters (l : List Char) (i : Nat) : Bool :=
  isLetterGo (l.getD i ' ') && isLetterGo (l.getD (i + 1) ' ')

/-- The bigram-plausibility check exactly as the claim words it: reject when
the deny-listed fraction of letter-adjacent bigrams exceeds 0.2, or when the
fraction of vowel-free 5-character sliding windows among all 5-character
windows exceeds 0.35. -/
def uncommonClustersClaim (s : List Char) : Bool :=
  let lower := toLowerGo s
  let idx := List.range (lower.length - 1)
  let total := idx.countP (fun i => pairIsLetters lower i)
  let uncommon := idx.countP (fun i => pairIsLetters lower i &&
    decide ((lower.getD i ' ', lower.getD (i + 1) ' ') ∈ uncommonBigrams))
  let totalW := lower.length - 4
  let noVowelW := (List.range (lower.length - 4)).countP
    (fun i => !windowHasVowel ((lower.drop i).take 5))
  decide (5 * uncommon > total) || decide (20 * noVowelW > 7 * totalW)

/-- The bigram-plausibility check as the code computes it, in closed indexed
form: vowel-free windows are counted only at positions whose adjacent pair
are both letters and that have four more characters after them, and the
window fraction uses the letter-bigram count as denominator. -/
def uncommonClustersAmended (s : List Char) : Bool :=
  let lower := toLowerGo s
  let idx := List.range (lower.length - 1)
  let total := idx.countP (fun i => pairIsLetters lower i)
  let uncommon := idx.countP (fun i => pairIsLetters lower i &&
    decide ((lower.getD i ' ', lower.getD (i + 1) ' ') ∈ uncommonBigrams))
  let noVowel := idx.countP (fun i => pairIsLetters lower i &&
    (decide (i + 4 < lower.length) && !windowHasVowel ((lower.drop i).take 5)))
  decide (5 * uncommon > total) || decide (20 * noVowel > 7 * total)

theorem countP_range_succ (p : Nat → Bool) (n : Nat) :
    (List.range (n + 1)).countP p =
      ((List.range n).countP fun i => p (i + 1)) + (if p 0 then 1 else 0) := by
  rw [List.range_succ_eq_map, List.countP_cons, List.countP_map]
  rfl

theorem clusterCounts_fst (l : List Char) :
    (clusterCountsAux l).1 =
      (List.range (l.length - 1)).countP (fun i => pairIsLetters l i) := by
  induction l with
  | nil => rfl
  | cons a tail ih =>
    cases tail with
    | nil => rfl
    | cons b rest =>
      have hlen : (a :: b :: rest).length - 1 = ((b :: rest).length - 1) + 1 := by
        simp
      have hc : ((List.range ((b :: rest).length - 1)).countP
          fun i => pairIsLetters (a :: b :: rest) (i + 1)) =
          (List.range ((b :: rest).length - 1)).countP
            fun i => pairIsLetters (b :: rest) i :=
        List.countP_congr (fun i _ => by simp [pairIsLetters])
      have h0 : pairIsLetters (a :: b :: rest) 0 =
          (isLetterGo a && isLetterGo b) := by
        simp [pairIsLetters]
      rw [hlen, countP_range_succ, hc, h0]
      simp only [clusterCountsAux]
      by_cases hg : (isLetterGo a && isLetterGo b) = true <;>
        simp [hg, ih]

theorem clusterCounts_snd (l : List Char) :
    (clusterCountsAux l).2.1 =
      (List.range (l.length - 1)).countP (fun i => pairIsLetters l i &&
        decide ((l.getD i ' ', l.getD (i + 1) ' ') ∈ uncommonBigrams)) := by
  induction l with
  | nil => rfl
  | cons a tail ih =>
    cases tail with
    | nil => rfl
    | cons b rest =>
      have hlen : (a :: b :: rest).length - 1 = ((b :: rest).length - 1) + 1 := by
        simp
      have hc : ((List.range ((b :: rest).length - 1)).countP
          fun i => pairIsLetters (a :: b :: rest) (i + 1) &&
            decide (((a :: b :: rest).getD (i + 1) ' ',
              (a :: b :: rest).getD (i + 1 + 1) ' ') ∈ uncommonBigrams)) =
          (List.range ((b :: rest).length - 1)).countP
            fun i => pairIsLetters (b :: rest) i &&
              decide (((b :: rest).getD i ' ',
                (b :: rest).getD (i + 1) ' ') ∈ uncommonBigrams) :=
        List.countP_congr (fun i _ => by simp [pairIsLetters])
      have h0 : (pairIsLetters (a :: b :: rest) 0 &&
          decide (((a :: b :: rest).getD 0 ' ',
            (a :: b :: rest).getD 1 ' ') ∈ uncommonBigrams)) =
          ((isLetterGo a && isLetterGo b) &&
            decide ((a, b) ∈ uncommonBigrams)) := by
        simp [pairIsLetters]
      rw [hlen, countP_range_succ, hc, h0]
      simp only [clusterCountsAux]
      by_cases hg : (isLetterGo a && isLetterGo b) = true
      · by_cases hd : (a, b) ∈ uncommonBigrams <;> simp [hg, hd, ih]
      · simp [hg, ih]

theorem clusterCounts_thd (l : List Char) :
    (clusterCountsAux l).2.2 =
      (List.range (l.length - 1)).countP (fun i => pairIsLetters l i &&
        (decide (i + 4 < l.length) &&
          !windowHasVowel ((l.drop i).take 5))) := by
  induction l with
  | nil => rfl
  | cons a tail ih =>
    cases tail with
    | nil => rfl
    | cons b rest =>
      have hlen : (a :: b :: rest).length - 1 = ((b :: rest).length - 1) + 1 := by
        simp
      have hc : ((List.range ((b :: rest).length - 1)).countP
          fun i => pairIsLetters (a :: b :: rest) (i + 1) &&
            (decide (i + 1 + 4 < (a :: b :: rest).length) &&
              !windowHasVowel (((a :: b :: rest).drop (i + 1)).take 5))) =
          (List.range ((b :: rest).length - 1)).countP
            fun i => pairIsLetters (b :: rest) i &&
              (decide (i + 4 < (b :: rest).length) &&
                !windowHasVowel (((b :: rest).drop i).take 5)) := by
        refine List.countP_congr (fun i _ => ?_)
        have hd : (decide (i + 1 + 4 < (a :: b :: rest).length) : Bool) =
            decide (i + 4 < (b :: rest).length) := by
          rw [decide_eq_decide]
          simp only [List.length_cons]
          omega
        simp only [pairIsLetters, List.getD_cons_succ, List.drop_succ_cons, hd]
      have hd0 : (decide (0 + 4 < (a :: b :: rest).length) : Bool) =
          decide (5 ≤ (a :: b :: rest).length) := by
        rw [decide_eq_decide]
        omega
      have h0 : (pairIsLetters (a :: b :: rest) 0 &&
          (decide (0 + 4 < (a :: b :: rest).length) &&
            !windowHasVowel (((a :: b :: rest).drop 0).take 5))) =
          ((isLetterGo a && isLetterGo b) &&
            (decide (5 ≤ (a :: b :: rest).length) &&
              !windowHasVowel ((a :: b :: rest).take 5))) := by
        simp only [pairIsLetters, List.getD_cons_zero, List.getD_cons_succ,
          List.drop_zero, hd0]
      rw [hlen, countP_range_succ, hc, h0]
      simp only [clusterCountsAux]
      by_cases hg : (isLetterGo a && isLetterGo b) = true
      · rw [if_pos hg]
        dsimp only
        by_cases hw : (decide (5 ≤ (a :: b :: rest).length) &&
            !windowHasVowel ((a :: b :: rest).take 5)) = true
        · rw [if_pos hw, ih, if_pos (by rw [hg, hw]; rfl)]
        · have hw' : (decide (5 ≤ (a :: b :: rest).length) &&
              !windowHasVowel ((a :: b :: rest).take 5)) = false :=
            Bool.eq_false_iff.mpr hw
          rw [if_neg hw, ih, if_neg (by rw [hg, hw']; simp)]
          simp
      · have hg' : (isLetterGo a && isLetterGo b) = false :=
          Bool.eq_false_iff.mpr hg
        rw [if_neg hg, ih, if_neg (by simp [hg'])]
        simp

/-- C4 counterexample: on the all-letter string "bcdtga" the code's check
keeps the string — it counts 1 vowel-free window against 5 letter bigrams
(1/5 ≤ 0.35) — while the claim's reading (vowel-free windows among all
5-character windows, 1/2 > 0.35) rejects it, so the claimed equivalence
fails. -/
theorem uncommonClusters_claim_counterexample :
    containsTooManyUncommonClusters "bcdtga".data = false ∧
    uncommonClustersClaim "bcdtga".data = true :=
  ⟨by decide, by decide⟩

/-- C4 (amended): on all-ASCII strings, the bigram-plausibility check
rejects exactly when, with the letter-adjacent bigram count as the
denominator for both ratios, the deny-listed bigram fraction exceeds 0.2 or
the fraction of vowel-free 5-character windows anchored at letter-bigram
positions (with four more characters available) exceeds 0.35; with no
letter-adjacent bigrams it never rejects.  The Go loop
(mutate_util.go:444-467) indexes bytes; on all-ASCII input — the scope of
this theorem — bytes and characters coincide, so the character model is
exact there. -/
theorem uncommonClusters_amended_eq (s : List Char)
    (_hascii : ∀ c ∈ s, c.toNat < 128) :
    containsTooManyUncommonClusters s = uncommonClustersAmended s := by
  simp only [containsTooManyUncommonClusters, uncommonClustersAmended,
    clusterCounts_fst, clusterCounts_snd, clusterCounts_thd]
  by_cases h : (List.range ((toLowerGo s).length - 1)).countP
      (fun i => pairIsLetters (toLowerGo s) i) = 0
  · have hu : (List.range ((toLowerGo s).length - 1)).countP
        (fun i => pairIsLetters (toLowerGo s) i &&
          decide (((toLowerGo s).getD i ' ',
            (toLowerGo s).getD (i + 1) ' ') ∈ uncommonBigrams)) ≤
        (List.range ((toLowerGo s).length - 1)).countP
          (fun i => pairIsLetters (toLowerGo s) i) :=
      List.countP_mono_left (fun i _ hp => by
        simp only [Bool.and_eq_true] at hp
        exact hp.1)
    have hn : (List.range ((toLowerGo s).length - 1)).countP
        (fun i => pairIsLetters (toLowerGo s) i &&
          (decide (i + 4 < (toLowerGo s).length) &&
            !windowHasVowel (((toLowerGo s).drop i).take 5))) ≤
        (List.range ((toLowerGo s).length - 1)).countP
          (fun i => pairIsLetters (toLowerGo s) i) :=
      List.countP_mono_left (fun i _ hp => by
        simp only [Bool.and_eq_true] at hp
        exact hp.1)
    rw [h] at hu hn
    rw [if_pos h, Nat.le_zero.mp hu, Nat.le_zero.mp hn, h]
    simp
  · simp [h]

/-- C4 witness: instantiation of the amended equivalence on the all-ASCII
string "bcdtga", on which both sides keep. -/
theorem uncommonClusters_amended_eq_witness :
    (∀ c ∈ "bcdtga".data, c.toNat < 128) ∧
    containsTooManyUncommonClusters "bcdtga".data =
      uncommonClustersAmended "bcdtga".data :=
  ⟨by decide, uncommonClusters_amended_eq "bcdtga".data (by decide)⟩

theorem looksLike_false_of_syll0 {s : List Char}
    (h : countSyllableLikeSegments s = 0) : looksLikeWordPattern s = false := by
  simp [looksLikeWordPattern, h]

theorem looksLike_false_of_len8 {s : List Char} (h8 : 8 ≤ s.length)
    (h2 : countSyllableLikeSegments s < 2) : looksLikeWordPattern s = false := by
  simp [looksLikeWordPattern, h8, h2]

theorem likely_false_of_looks {s : List Char}
    (h : looksLikeWordPattern s = false) : likelyContainsWords s = false := by
  simp [likelyContainsWords, h]

/-- C3: the classifier (the keep-condition of `filterLines`) rejects every
all-ASCII string that is shorter than 5 characters, or contains no letter, or
has syllable-like segment count 0, or has length at least 8 and syllable
count below 2.  The Go loops (`likelyContainsWords`, mutate_util.go:188-206)
measure length and slice windows in bytes; on all-ASCII input — the scope of
this theorem — bytes and characters coincide, so the character model is
exact there. -/
theorem classifier_reject_conditions (s : List Char)
    (_hascii : ∀ c ∈ s, c.toNat < 128)
    (h : s.length < 5 ∨ (∀ c ∈ s, isLetterGo c = false) ∨
      countSyllableLikeSegments s = 0 ∨
      (8 ≤ s.length ∧ countSyllableLikeSegments s < 2)) :
    classifierAccepts s = false := by
  rcases h with h | h | h | ⟨h8, h2⟩
  · simp [classifierAccepts, likelyContainsWords, h]
  · have : isAllDigitsOrSpecialChars s = true := by
      simp only [isAllDigitsOrSpecialChars, Bool.not_eq_true']
      exact List.any_eq_false.2 (fun c hc => by simpa using h c hc)
    simp [classifierAccepts, this]
  · simp [classifierAccepts, likely_false_of_looks (looksLike_false_of_syll0 h)]
  · simp [classifierAccepts, likely_false_of_looks (looksLike_false_of_len8 h8 h2)]

/-- C3 witness: instantiations of the rejection theorem on concrete strings
for each rejection condition. -/
theorem classifier_reject_conditions_witness :
    (∀ c ∈ "abcd".data, c.toNat < 128) ∧
    classifierAccepts "abcd".data = false ∧
    classifierAccepts "12345".data = false ∧
    classifierAccepts "bcdfg".data = false ∧
    classifierAccepts "strengths".data = false :=
  ⟨by decide,
    classifier_reject_conditions "abcd".data (by decide) (Or.inl (by decide)),
    classifier_reject_conditions "12345".data (by decide)
      (Or.inr (Or.inl (by decide))),
    classifier_reject_conditions "bcdfg".data (by decide)
      (Or.inr (Or.inr (Or.inl (by decide)))),
    classifier_reject_conditions "strengths".data (by decide)
      (Or.inr (Or.inr (Or.inr ⟨by decide, by decide⟩)))⟩

/-- Worker for `splitOnChar`, carrying the current part. -/
def splitOnCharAux (c : Char) (cur : List Char) : List Char → List (List Char)
  | [] => [cur]
  | x :: rest =>
    if x = c then cur :: splitOnCharAux c [] rest
    else splitOnCharAux c (cur ++ [x]) rest

/-- Go `strings.Split(s, string(c))`: split at every occurrence of `c`,
keeping empty parts. -/
def splitOnChar (c : Char) (s : List Char) : List (List Char) :=
  splitOnCharAux c [] s

/-- Strip one trailing carriage return, as `bufio.ScanLines` does. -/
def dropTrailingCR (s : List Char) : List Char :=
  if s.getLast? = some '\r' then s.dropLast else s

/-- The token sequence of a `bufio.Scanner` with `ScanLines` over `s`: split
at newlines, no empty token after a final newline (and no token at all for
empty input), one trailing carriage return stripped from each line. -/
def scanLines (s : List Char) : List (List Char) :=
  if s = [] then []
  else (if s.getLast? = some '\n' then (splitOnChar '\n' s).dropLast
        else splitOnChar '\n' s).map dropTrailingCR

/-- `Config` (pkg/structs): the application configuration. -/
structure Config where
  NGramMin : Int
  NGramMax : Int
  OutMinLength : Int
  OutMaxLength : Int
  IncludeNonLatin : Bool

/-- `removeTrailingNonLettersDigits` (mutate_util.go:240-255). -/
def removeTrailingNonLettersDigits (data : List Char) : List Char :=
  (scanLines data).flatMap
    (fun l => trimRightWhile (fun c => !isLetterGo c) l ++ ['\n'])

/-- `removeLeadingNonLettersDigits` (mutate_util.go:265-280). -/
def removeLeadingNonLettersDigits (data : List Char) : List Char :=
  (scanLines data).flatMap
    (fun l => trimLeftWhile (fun c => !isLetterGo c) l ++ ['\n'])

/-- Modelled from the spec: the Config-aware `filterLines(cfg, data)` called
by `TransformLine` (mutate_util.go:893), whose body is not under src/ (only
the one-argument revision at mutate_util.go:132-155 is).  Blank lines are
dropped; a line is kept when the classifier accepts it, and additionally —
per spec §4.1/§9, where `IncludeNonLatin` lets letters outside the ASCII
range satisfy the has-letter and vowel checks without being scored against
the ASCII vowel set (the exact relaxation being an implementation choice) —
when relaxed mode is on and the line has at least 5 characters, one of them
non-ASCII. -/
def filterLinesCfg (cfg : Config) (data : List Char) : List Char :=
  (scanLines data).flatMap (fun l =>
    if (decide (trimSpaceGo l ≠ []) &&
        (classifierAccepts l ||
          (cfg.IncludeNonLatin && decide (5 ≤ l.length) &&
            l.any (fun c => 128 ≤ c.toNat)))) = true
    then l ++ ['\n'] else [])

/-- `generateNGramSliceBytes` (mutate_util.go:917-928): n-grams of every
newline-separated line, flattened and joined with newlines. -/
def generateNGramSliceBytes (input : List Char)
    (wordRangeStart wordRangeEnd : Int) : List Char :=
  joinWith '\n' ((splitOnChar '\n' input).flatMap
    (fun l => generateNGrams l wordRangeStart wordRangeEnd))

/-- The control-character cleaning of `prepareStringForTransformations`
(mutate_util.go:980-985): sequential removal of NUL, `\n`, `\t`, `\r`,
form feed and vertical tab. -/
def removeCtl (l : List Char) : List Char :=
  removeChar '\x0B' (removeChar '\x0C' (removeChar '\r'
    (removeChar '\t' (removeChar '\n' (removeChar '\x00' l)))))

/-- Embedding of `cases.Title(language.Und, cases.NoLower)` for the token
shapes reaching it in this file: the first letter of each maximal ASCII
letter run not preceded by a letter is mapped to upper case and every other
character is unchanged (`NoLower` leaves the remainder of each word as is).
This is the x/text caser's behaviour on ASCII words separated by spaces; the
theorems relying on it quantify only over such strings. -/
def titleNoLowerAux : List Char → Bool → List Char
  | [], _ => []
  | c :: rest, prevLetter =>
    (if isAsciiLetter c && !prevLetter then c.toUpper else c) ::
      titleNoLowerAux rest (isAsciiLetter c)

/-- `cases.Title(language.Und, cases.NoLower).String` (see above). -/
def titleNoLower (s : List Char) : List Char := titleNoLowerAux s false

/-- `prepareStringForTransformations`, latest revision
(mutate_util.go:971-1006): control characters stripped, blank lines dropped,
space-containing lines title-cased and de-spaced, other lines de-spaced.
This revision applies no lower-casing. -/
def prepareStringForTransformations (data : List Char) : List (List Char) :=
  (scanLines data).filterMap (fun line =>
    let clean := removeCtl line
    if trimSpaceGo clean = [] then none
    else if clean.any (fun c => c = ' ') then
      some (removeChar ' ' (titleNoLower clean))
    else some (removeChar ' ' clean))

/-- The VariantExpander case step as the claim and the mutate.go:101-137
revision word it: case-fold to lower case first, then title-case
space-containing lines. -/
def prepareStringClaim (data : List Char) : List (List Char) :=
  (scanLines data).filterMap (fun line =>
    let clean := toLowerGo (removeCtl line)
    if trimSpaceGo clean = [] then none
    else if clean.any (fun c => c = ' ') then
      some (removeChar ' ' (titleNoLower clean))
    else some (removeChar ' ' clean))

/-- ASCII or typographic apostrophe. -/
def isApostrophe (c : Char) : Bool := c = '\'' || c = '’'

/-- `generateApostropheFreeVariants` (mutate_util.go:1097-1118). -/
def generateApostropheFreeVariants (s : List Char) : List (List Char) :=
  if s.any isApostrophe then
    if s.filter (fun c => !isApostrophe c) = [] ∨
        s.filter (fun c => !isApostrophe c) = s then []
    else [s.filter (fun c => !isApostrophe c)]
  else []

/-- The opening-to-closing delimiter map of `hasUnbalancedLeadingDelimiter`
(mutate_util.go:1059-1067). -/
def openToClose : Char → Option (List Char)
  | '(' => some [')']
  | '[' => some [']']
  | '{' => some ['}']
  | '<' => some ['>']
  | '"' => some ['"', '”']
  | '“' => some ['”', '"']
  | '‘' => some ['’', '\'']
  | _ => none

/-- `hasUnbalancedLeadingDelimiter` (mutate_util.go:1052-1085): true when
the first character is a recognized opener and no allowed closer occurs
later in the token. -/
def hasUnbalancedLeadingDelimiter (s : List Char) : Bool :=
  match s with
  | [] => false
  | first :: rest =>
    match openToClose first with
    | none => false
    | some allowedClosers => !(rest.any (fun r => decide (r ∈ allowedClosers)))

/-- `applyPostFilters`, latest revision (mutate_util.go:1017-1041): drop
empty lines and lines with an unbalanced leading delimiter; keep every other
line followed by its apostrophe-free variants. -/
def applyPostFilters (data : List Char) : List (List Char) :=
  (scanLines data).flatMap (fun line =>
    if line = [] then []
    else if hasUnbalancedLeadingDelimiter line then []
    else line :: generateApostropheFreeVariants line)

/-- `enforceLengthRange` (mutate_util.go:292-303): keep the
newline-separated entries whose length is within the inclusive bounds. -/
def enforceLengthRange (input : List Char) (minLength maxLength : Int) :
    List Char :=
  joinWith '\n' ((splitOnChar '\n' input).filter
    (fun l => decide (minLength ≤ (l.length : Int)) &&
      decide ((l.length : Int) ≤ maxLength)))

/-- `TransformLine`, latest revision (mutate_util.go:890-905): trim, filter
through the classifier, generate n-grams, prepare variants, post-filter, and
enforce the output length range. -/
def TransformLine (cfg : Config) (line : List Char) : List Char :=
  let l1 := removeTrailingNonLettersDigits line
  let l2 := removeLeadingNonLettersDigits l1
  let l3 := filterLinesCfg cfg l2
  if l3 = [] then []
  else
    let p1 := generateNGramSliceBytes l3 cfg.NGramMin cfg.NGramMax
    let p2 := joinWith '\n' (prepareStringForTransformations p1)
    let p3 := joinWith '\n' (applyPostFilters p2)
    enforceLengthRange p3 cfg.OutMinLength cfg.OutMaxLength

example : prepareStringForTransformations "THE".data = ["THE".data] := by rfl

example : prepareStringForTransformations "the quick".data =
    ["TheQuick".data] := by rfl

example : TransformLine ⟨1, 2, 4, 20, false⟩ "The Quick Brown Fox".data =
    "Quick\nBrown\nTheQuick\nQuickBrown\nBrownFox".data := by rfl

theorem asciiLetter_facts {c : Char} (h : isAsciiLetter c = true) :
    (65 ≤ c.toNat ∧ c.toNat ≤ 90) ∨ (97 ≤ c.toNat ∧ c.toNat ≤ 122) := by
  simp only [isAsciiLetter, Bool.or_eq_true, Bool.and_eq_true,
    decide_eq_true_eq] at h
  exact h

theorem asciiLetter_not_space {c : Char} (h : isAsciiLetter c = true) :
    isGoSpace c = false := by
  have hf := asciiLetter_facts h
  simp only [isGoSpace]
  simp only [Bool.or_eq_false_iff, Bool.and_eq_false_iff,
    decide_eq_false_iff_not]
  omega

theorem asciiLetter_ne_char {c d : Char} (h : isAsciiLetter c = true)
    (hd : d.toNat < 65 ∨ 122 < d.toNat ∨ (90 < d.toNat ∧ d.toNat < 97)) :
    c ≠ d := by
  intro he
  have hf := asciiLetter_facts h
  rw [he] at hf
  omega

theorem removeChar_id {t : Char} {l : List Char} (h : ∀ c ∈ l, c ≠ t) :
    removeChar t l = l :=
  List.filter_eq_self.2 (fun c hc => by simpa using h c hc)

theorem removeCtl_plain {l : List Char}
    (h : ∀ c ∈ l, isAsciiLetter c = true ∨ c = ' ') : removeCtl l = l := by
  have hne : ∀ (t : Char), t.toNat < 32 → ∀ c ∈ l, c ≠ t := by
    intro t ht c hc he
    rcases h c hc with hca | hcs
    · exact asciiLetter_ne_char hca (by omega) he
    · have h32 : t.toNat = 32 := by
        rw [← he, hcs]
        decide
      omega
  rw [removeCtl,
    removeChar_id (hne '\x00' (by decide)),
    removeChar_id (hne '\n' (by decide)),
    removeChar_id (hne '\t' (by decide)),
    removeChar_id (hne '\r' (by decide)),
    removeChar_id (hne '\x0C' (by decide)),
    removeChar_id (hne '\x0B' (by decide))]

theorem splitOnCharAux_no_sep (c : Char) : ∀ (s : List Char),
    (∀ x ∈ s, x ≠ c) → ∀ (cur : List Char),
    splitOnCharAux c cur s = [cur ++ s] := by
  intro s
  induction s with
  | nil => intro _ cur; simp [splitOnCharAux]
  | cons x rest ih =>
    intro h cur
    simp only [splitOnCharAux, if_neg (h x (by simp))]
    rw [ih (fun y hy => h y (by simp [hy])) (cur ++ [x])]
    simp

theorem scanLines_plain {s : List Char} (h0 : s ≠ [])
    (h : ∀ c ∈ s, c ≠ '\n' ∧ c ≠ '\r') : scanLines s = [s] := by
  have hnl : ¬ s.getLast? = some '\n' := by
    intro hg
    exact (h _ (List.mem_of_getLast?_eq_some hg)).1 rfl
  have hcr : ¬ s.getLast? = some '\r' := by
    intro hg
    exact (h _ (List.mem_of_getLast?_eq_some hg)).2 rfl
  have hsplit : splitOnChar '\n' s = [s] := by
    rw [splitOnChar, splitOnCharAux_no_sep '\n' s (fun x hx => (h x hx).1) []]
    rfl
  rw [scanLines, if_neg h0, if_neg hnl, hsplit]
  simp [dropTrailingCR, hcr]

theorem mem_of_head?_eq_some {l : List Char} {a : Char}
    (h : l.head? = some a) : a ∈ l := by
  cases l with
  | nil => cases h
  | cons x t =>
    cases h
    exact List.mem_cons_self _ _

theorem trimSpaceGo_eq_self {s : List Char}
    (hh : ∀ c, s.head? = some c → isGoSpace c = false)
    (hl : ∀ c, s.getLast? = some c → isGoSpace c = false) :
    trimSpaceGo s = s := by
  rw [trimSpaceGo, trimLeftWhile, trimRightWhile,
    dropWhile_eq_self_of_head hh,
    dropWhile_eq_self_of_head (fun c hc => hl c (by
      rwa [List.head?_reverse] at hc)),
    List.reverse_reverse]

theorem toNat_ofNat_valid {n : Nat} (h : n < 0xd800) :
    (Char.ofNat n).toNat = n := by
  rw [Char.ofNat, dif_pos (Or.inl h)]
  rfl

theorem toUpper_toNat (c : Char) :
    c.toUpper.toNat =
      if 97 ≤ c.toNat ∧ c.toNat ≤ 122 then c.toNat - 32 else c.toNat := by
  rw [Char.toUpper]
  by_cases h : 97 ≤ c.toNat ∧ c.toNat ≤ 122
  · rw [if_pos h, if_pos h, toNat_ofNat_valid (by omega)]
  · rw [if_neg h, if_neg h]

theorem toUpper_asciiLetter {c : Char} (h : isAsciiLetter c = true) :
    isAsciiLetter c.toUpper = true := by
  have hf := asciiLetter_facts h
  have ht := toUpper_toNat c
  simp only [isAsciiLetter, Bool.or_eq_true, Bool.and_eq_true,
    decide_eq_true_eq]
  by_cases hc : 97 ≤ c.toNat ∧ c.toNat ≤ 122
  · rw [if_pos hc] at ht
    omega
  · rw [if_neg hc] at ht
    omega

/-- The claimed per-word title action: first character uppercased, remainder
unchanged. -/
def capFirst : List Char → List Char
  | [] => []
  | c :: rest => c.toUpper :: rest

theorem titleNoLowerAux_alpha_true : ∀ (l : List Char),
    (∀ c ∈ l, isAsciiLetter c = true) → titleNoLowerAux l true = l := by
  intro l
  induction l with
  | nil => intro _; rfl
  | cons c rest ih =>
    intro h
    have hc := h c (by simp)
    simp only [titleNoLowerAux, hc, Bool.not_true, Bool.and_false,
      Bool.false_eq_true, if_false]
    rw [ih (fun d hd => h d (by simp [hd]))]

theorem titleNoLowerAux_false_word : ∀ (w : List Char),
    (∀ c ∈ w, isAsciiLetter c = true) →
    titleNoLowerAux w false = capFirst w := by
  intro w
  cases w with
  | nil => intro _; rfl
  | cons c rest =>
    intro h
    have hc := h c (by simp)
    simp only [titleNoLowerAux, hc, Bool.not_false, Bool.and_true, if_true,
      capFirst]
    rw [titleNoLowerAux_alpha_true rest (fun d hd => h d (by simp [hd]))]

theorem titleNoLowerAux_mid (t : List Char) : ∀ (rest : List Char),
    (∀ c ∈ rest, isAsciiLetter c = true) →
    titleNoLowerAux (rest ++ ' ' :: t) true =
      rest ++ ' ' :: titleNoLowerAux t false := by
  intro rest
  induction rest with
  | nil =>
    intro _
    simp only [List.nil_append, titleNoLowerAux]
    norm_num [show isAsciiLetter ' ' = false from rfl]
  | cons c r ih =>
    intro h
    have hc := h c (by simp)
    simp only [List.cons_append, titleNoLowerAux, hc, Bool.not_true,
      Bool.and_false, Bool.false_eq_true, if_false, List.append_eq]
    rw [ih (fun d hd => h d (by simp [hd]))]

theorem titleNoLower_two_words {w1 w2 : List Char} (h1 : w1 ≠ [])
    (ha1 : ∀ c ∈ w1, isAsciiLetter c = true)
    (ha2 : ∀ c ∈ w2, isAsciiLetter c = true) :
    titleNoLower (w1 ++ ' ' :: w2) = capFirst w1 ++ ' ' :: capFirst w2 := by
  cases w1 with
  | nil => exact absurd rfl h1
  | cons c r =>
    have hc := ha1 c (by simp)
    rw [titleNoLower]
    rw [show capFirst (c :: r) = c.toUpper :: r from rfl]
    simp only [List.cons_append, titleNoLowerAux, hc, Bool.not_false,
      Bool.and_true, if_true, List.append_eq]
    rw [titleNoLowerAux_mid w2 r (fun d hd => ha1 d (by simp [hd])),
      titleNoLowerAux_false_word w2 ha2]

theorem removeChar_append_sep {A B : List Char} {t : Char}
    (hA : ∀ c ∈ A, c ≠ t) (hB : ∀ c ∈ B, c ≠ t) :
    removeChar t (A ++ t :: B) = A ++ B := by
  have h1 := removeChar_id hA
  have h2 := removeChar_id hB
  rw [removeChar] at h1 h2 ⊢
  rw [List.filter_append, List.filter_cons, h1, h2]
  simp

theorem mem_joinWith {c : Char} : ∀ (ws : List (List Char)),
    c ∈ joinWith ' ' ws → (∃ w ∈ ws, c ∈ w) ∨ c = ' ' := by
  intro ws
  induction ws with
  | nil => intro h; cases h
  | cons w tail ih =>
    intro h
    cases tail with
    | nil => exact Or.inl ⟨w, by simp, h⟩
    | cons x t =>
      rw [show joinWith ' ' (w :: x :: t) = w ++ ' ' :: joinWith ' ' (x :: t)
        from rfl] at h
      rcases List.mem_append.1 h with h | h
      · exact Or.inl ⟨w, by simp, h⟩
      · rcases List.mem_cons.1 h with h | h
        · exact Or.inr h
        · rcases ih h with ⟨v, hv, hcv⟩ | h
          · exact Or.inl ⟨v, by simp [hv], hcv⟩
          · exact Or.inr h

theorem joinWith_head_of_ne {w : List Char} (tail : List (List Char))
    (hw : w ≠ []) : (joinWith ' ' (w :: tail)).head? = w.head? := by
  cases tail with
  | nil => rfl
  | cons x t =>
    obtain ⟨c, r, rfl⟩ : ∃ c r, w = c :: r := by
      cases w with
      | nil => exact absurd rfl hw
      | cons a b => exact ⟨a, b, rfl⟩
    rfl

theorem titleNoLower_words : ∀ (ws : List (List Char)),
    (∀ w ∈ ws, w ≠ []) →
    (∀ w ∈ ws, ∀ c ∈ w, isAsciiLetter c = true) →
    titleNoLower (joinWith ' ' ws) = joinWith ' ' (ws.map capFirst) := by
  intro ws
  induction ws with
  | nil => intro _ _; rfl
  | cons w tail ih =>
    intro hne ha
    cases tail with
    | nil =>
      show titleNoLowerAux w false = joinWith ' ' [capFirst w]
      rw [show joinWith ' ' [capFirst w] = capFirst w from rfl]
      exact titleNoLowerAux_false_word w (ha w (by simp))
    | cons x t =>
      obtain ⟨c, r, rfl⟩ : ∃ c r, w = c :: r := by
        cases w with
        | nil => exact absurd rfl (hne _ (by simp))
        | cons a b => exact ⟨a, b, rfl⟩
      have hc : isAsciiLetter c = true := ha (c :: r) (by simp) c (by simp)
      rw [titleNoLower, show joinWith ' ' ((c :: r) :: x :: t) =
        (c :: r) ++ ' ' :: joinWith ' ' (x :: t) from rfl]
      simp only [List.cons_append, titleNoLowerAux, hc, Bool.not_false,
        Bool.and_true, if_true, List.append_eq]
      rw [titleNoLowerAux_mid (joinWith ' ' (x :: t)) r
        (fun d hd => ha (c :: r) (by simp) d (by simp [hd]))]
      rw [show titleNoLowerAux (joinWith ' ' (x :: t)) false =
        titleNoLower (joinWith ' ' (x :: t)) from rfl]
      rw [ih (fun v hv => hne v (by simp [hv]))
        (fun v hv => ha v (by simp [hv]))]
      rfl

theorem removeChar_joinWith : ∀ (ws : List (List Char)),
    (∀ w ∈ ws, ∀ c ∈ w, c ≠ ' ') →
    removeChar ' ' (joinWith ' ' ws) = ws.flatten := by
  intro ws
  induction ws with
  | nil => intro _; rfl
  | cons w tail ih =>
    intro h
    cases tail with
    | nil =>
      show removeChar ' ' w = [w].flatten
      rw [removeChar_id (h w (by simp))]
      simp
    | cons x t =>
      have h1 : removeChar ' ' (w ++ ' ' :: joinWith ' ' (x :: t)) =
          removeChar ' ' w ++ removeChar ' ' (joinWith ' ' (x :: t)) := by
        simp [removeChar, List.filter_append, List.filter_cons]
      rw [show joinWith ' ' (w :: x :: t) =
        w ++ ' ' :: joinWith ' ' (x :: t) from rfl, h1,
        removeChar_id (h w (by simp)),
        ih (fun v hv c hc => h v (by simp [hv]) c hc)]
      simp

/-- C5 counterexample: the revision at mutate_util.go:971-1006 applies no
lower-casing — the single-word line "THE" passes through as "THE", while the
claimed case-fold-to-lower behaviour (as in the mutate.go:101-137 revision,
modelled by `prepareStringClaim`) produces "the". -/
theorem prepareString_not_lowercased :
    prepareStringForTransformations "THE".data = ["THE".data] ∧
    prepareStringClaim "THE".data = ["the".data] ∧
    "THE".data ≠ "the".data :=
  ⟨by rfl, by rfl, by decide⟩

/-- C5 (amended): the VariantExpander applies no case fold in the latest
revision.  For n-grams whose space-separated words consist of ASCII letters
(the shapes on which the modelled x/text title caser acts as plain
first-letter uppercasing): a nonempty single-word n-gram passes through
unchanged (space removal is a no-op), and a multi-word n-gram — any number
of words at least two — is title-cased per word, first letter uppercased
with the remainder kept in its original case, and concatenated with no
separator. -/
theorem prepareString_case_behavior (w : List Char) (ws : List (List Char))
    (hw : w ≠ []) (hall : ∀ c ∈ w, isAsciiLetter c = true)
    (hlen : 2 ≤ ws.length) (hne : ∀ v ∈ ws, v ≠ [])
    (ha : ∀ v ∈ ws, ∀ c ∈ v, isAsciiLetter c = true) :
    prepareStringForTransformations w = [w] ∧
    prepareStringForTransformations (joinWith ' ' ws) =
      [(ws.map capFirst).flatten] := by
  constructor
  · have hplain : ∀ c ∈ w, c ≠ '\n' ∧ c ≠ '\r' := fun c hc =>
      ⟨asciiLetter_ne_char (hall c hc) (by decide),
       asciiLetter_ne_char (hall c hc) (by decide)⟩
    have hctl : removeCtl w = w :=
      removeCtl_plain (fun c hc => Or.inl (hall c hc))
    have htrim : trimSpaceGo w = w :=
      trimSpaceGo_eq_self
        (fun c hc => asciiLetter_not_space (hall c (mem_of_head?_eq_some hc)))
        (fun c hc => asciiLetter_not_space
          (hall c (List.mem_of_getLast?_eq_some hc)))
    have hspace : ' ' ∉ w := fun hsp =>
      (asciiLetter_ne_char (hall ' ' hsp) (by decide)) rfl
    have hrm : removeChar ' ' w = w :=
      removeChar_id (fun c hc => asciiLetter_ne_char (hall c hc) (by decide))
    simp only [prepareStringForTransformations]
    rw [scanLines_plain hw hplain]
    simp [hctl, htrim, hw, hspace, hrm]
  · obtain ⟨w1, x, t, rfl⟩ : ∃ w1 x t, ws = w1 :: x :: t := by
      cases ws with
      | nil => simp at hlen
      | cons a tail =>
        cases tail with
        | nil => simp at hlen
        | cons b t => exact ⟨a, b, t, rfl⟩
    have hmem : ∀ c ∈ joinWith ' ' (w1 :: x :: t),
        isAsciiLetter c = true ∨ c = ' ' := by
      intro c hc
      rcases mem_joinWith _ hc with ⟨v, hv, hcv⟩ | hcs
      · exact Or.inl (ha v hv c hcv)
      · exact Or.inr hcs
    have hplain : ∀ c ∈ joinWith ' ' (w1 :: x :: t), c ≠ '\n' ∧ c ≠ '\r' := by
      intro c hc
      rcases hmem c hc with hca | hcs
      · exact ⟨asciiLetter_ne_char hca (by decide),
          asciiLetter_ne_char hca (by decide)⟩
      · subst hcs
        exact ⟨by decide, by decide⟩
    have hJne : joinWith ' ' (w1 :: x :: t) ≠ [] :=
      joinWith_ne_nil _ (by simp) hne
    have hh : ∀ c, (joinWith ' ' (w1 :: x :: t)).head? = some c →
        isGoSpace c = false := by
      intro c hc
      rw [joinWith_head_of_ne (x :: t) (hne w1 (by simp))] at hc
      exact asciiLetter_not_space (ha w1 (by simp) c (mem_of_head?_eq_some hc))
    have hl : ∀ c, (joinWith ' ' (w1 :: x :: t)).getLast? = some c →
        isGoSpace c = false := by
      intro c hc
      obtain ⟨v, hv, hveq⟩ := joinWith_getLast? (w1 :: x :: t) (by simp) hne
      rw [hveq] at hc
      exact asciiLetter_not_space (ha v hv c (List.mem_of_getLast?_eq_some hc))
    have hctl : removeCtl (joinWith ' ' (w1 :: x :: t)) =
        joinWith ' ' (w1 :: x :: t) := removeCtl_plain hmem
    have htrim : trimSpaceGo (joinWith ' ' (w1 :: x :: t)) =
        joinWith ' ' (w1 :: x :: t) := trimSpaceGo_eq_self hh hl
    have hsp : ' ' ∈ joinWith ' ' (w1 :: x :: t) := by
      rw [show joinWith ' ' (w1 :: x :: t) =
        w1 ++ ' ' :: joinWith ' ' (x :: t) from rfl]
      simp
    have htit : titleNoLower (joinWith ' ' (w1 :: x :: t)) =
        joinWith ' ' ((w1 :: x :: t).map capFirst) :=
      titleNoLower_words _ hne ha
    have hcap : ∀ (v : List Char), (∀ c ∈ v, isAsciiLetter c = true) →
        ∀ c ∈ capFirst v, c ≠ ' ' := by
      intro v hva c hc
      cases v with
      | nil => cases hc
      | cons cv rv =>
        rcases List.mem_cons.1 hc with rfl | hcm
        · exact asciiLetter_ne_char
            (toUpper_asciiLetter (hva cv (by simp))) (by decide)
        · exact asciiLetter_ne_char (hva c (by simp [hcm])) (by decide)
    have hrm0 : removeChar ' ' (joinWith ' ' ((w1 :: x :: t).map capFirst)) =
        ((w1 :: x :: t).map capFirst).flatten := by
      apply removeChar_joinWith
      intro v hv
      obtain ⟨u, hu, rfl⟩ := List.mem_map.1 hv
      exact hcap u (ha u hu)
    have hrm : removeChar ' '
        (joinWith ' ' (capFirst w1 :: capFirst x :: List.map capFirst t)) =
        capFirst w1 ++ (capFirst x ++ (List.map capFirst t).flatten) := by
      simpa using hrm0
    simp only [prepareStringForTransformations]
    rw [scanLines_plain hJne hplain]
    simp [hctl, htrim, hJne, hsp, htit, hrm]

/-- C5 witness: instantiation of the amended theorem on concrete words,
showing the pass-through of a lower-case word and the case-preserving
title-casing of a mixed-case three-word n-gram. -/
theorem prepareString_case_behavior_witness :
    prepareStringForTransformations "the".data = ["the".data] ∧
    prepareStringForTransformations
        (joinWith ' ' ["tHe".data, "qUick".data, "foX".data]) =
      [(["tHe".data, "qUick".data, "foX".data].map capFirst).flatten] :=
  prepareString_case_behavior "the".data
    ["tHe".data, "qUick".data, "foX".data]
    (by decide) (by decide) (by decide) (by decide) (by decide)

/-- C6: the delimiter-balance filter flags a token exactly when its first
character is a recognized opening delimiter whose allowed closing delimiters
(straight/curly equivalents included) never occur later in the token — so a
token whose first character is not an opener is never flagged, regardless of
internal brackets — and `applyPostFilters` keeps every unflagged nonempty
token unchanged. -/
theorem unbalanced_leading_delimiter_spec :
    (∀ s : List Char, hasUnbalancedLeadingDelimiter s = true ↔
      ∃ first rest closers, s = first :: rest ∧
        openToClose first = some closers ∧ ∀ r ∈ rest, r ∉ closers) ∧
    (∀ data tok : List Char, tok ∈ scanLines data → tok ≠ [] →
      hasUnbalancedLeadingDelimiter tok = false → tok ∈ applyPostFilters data) := by
  constructor
  · intro s
    cases s with
    | nil => simp [hasUnbalancedLeadingDelimiter]
    | cons first rest =>
      cases hoc : openToClose first with
      | none =>
        simp only [hasUnbalancedLeadingDelimiter, hoc]
        constructor
        · intro h
          cases h
        · rintro ⟨f', r', cl', heq, hoc', -⟩
          rw [List.cons.injEq] at heq
          rw [heq.1] at hoc
          rw [hoc] at hoc'
          cases hoc'
      | some closers =>
        simp only [hasUnbalancedLeadingDelimiter, hoc]
        constructor
        · intro h
          refine ⟨first, rest, closers, rfl, hoc, ?_⟩
          intro r hr hrc
          rw [Bool.not_eq_true', List.any_eq_false] at h
          have := h r hr
          simp [hrc] at this
        · rintro ⟨f', r', cl', heq, hoc', hall⟩
          rw [List.cons.injEq] at heq
          obtain ⟨hf, hr⟩ := heq
          subst hf
          subst hr
          rw [hoc] at hoc'
          cases hoc'
          rw [Bool.not_eq_true', List.any_eq_false]
          intro r hr
          simp [hall r hr]
  · intro data tok htok hne hbal
    obtain ⟨l1, l2, heq⟩ := List.append_of_mem htok
    rw [applyPostFilters, heq, List.flatMap_append, List.flatMap_cons]
    refine List.mem_append.2 (Or.inr (List.mem_append.2 (Or.inl ?_)))
    rw [if_neg hne, if_neg (by simp [hbal])]
    exact List.mem_cons_self _ _

/-- C6 witness: instantiation of the keep-unchanged part on a concrete
token with internal brackets but no leading opener. -/
theorem unbalanced_leading_delimiter_spec_witness :
    "a(b".data ∈ applyPostFilters "a(b".data :=
  unbalanced_leading_delimiter_spec.2 "a(b".data "a(b".data
    (by decide) (by decide) (by rfl)

/-- C7: for a surviving token, the apostrophe-variant step emits nothing
when the token has no ASCII or typographic apostrophe; when it has one, it
emits exactly one apostrophe-free copy unless that copy is empty (the
identical-copy guard can never fire, since stripping an apostrophe changes
the string); and `applyPostFilters` always keeps the original token, with
its variants placed immediately after it. -/
theorem apostrophe_variant_behavior :
    (∀ s : List Char, s.any isApostrophe = false →
      generateApostropheFreeVariants s = []) ∧
    (∀ s : List Char, s.any isApostrophe = true →
      s.filter (fun c => !isApostrophe c) ≠ [] →
      generateApostropheFreeVariants s =
        [s.filter (fun c => !isApostrophe c)] ∧
      s.filter (fun c => !isApostrophe c) ≠ s) ∧
    (∀ s : List Char, s.any isApostrophe = true →
      s.filter (fun c => !isApostrophe c) = [] →
      generateApostropheFreeVariants s = []) ∧
    (∀ data tok : List Char, tok ∈ scanLines data → tok ≠ [] →
      hasUnbalancedLeadingDelimiter tok = false →
      ∃ l1 l2, applyPostFilters data =
        l1 ++ tok :: (generateApostropheFreeVariants tok ++ l2)) := by
  refine ⟨?_, ?_, ?_, ?_⟩
  · intro s h
    rw [generateApostropheFreeVariants, if_neg (by simp [h])]
  · intro s h hne
    have hneq : s.filter (fun c => !isApostrophe c) ≠ s := by
      intro heq
      have hall := List.filter_eq_self.1 heq
      obtain ⟨a, ha, hap⟩ := List.any_eq_true.1 h
      have hx := hall a ha
      rw [hap] at hx
      cases hx
    refine ⟨?_, hneq⟩
    rw [generateApostropheFreeVariants, if_pos h,
      if_neg (by rintro (h1 | h2) <;> [exact hne h1; exact hneq h2])]
  · intro s h h0
    rw [generateApostropheFreeVariants, if_pos h, if_pos (Or.inl h0)]
  · intro data tok htok hne hbal
    obtain ⟨l1, l2, heq⟩ := List.append_of_mem htok
    refine ⟨l1.flatMap (fun line =>
        if line = [] then []
        else if hasUnbalancedLeadingDelimiter line then []
        else line :: generateApostropheFreeVariants line),
      l2.flatMap (fun line =>
        if line = [] then []
        else if hasUnbalancedLeadingDelimiter line then []
        else line :: generateApostropheFreeVariants line), ?_⟩
    rw [applyPostFilters, heq, List.flatMap_append, List.flatMap_cons,
      if_neg hne, if_neg (by simp [hbal])]
    simp

/-- C7 witness: instantiations on an apostrophe-free token and on a token
with one apostrophe. -/
theorem apostrophe_variant_behavior_witness :
    generateApostropheFreeVariants "abc".data = [] ∧
    (generateApostropheFreeVariants "ab'c".data =
      ["ab'c".data.filter (fun c => !isApostrophe c)] ∧
      "ab'c".data.filter (fun c => !isApostrophe c) ≠ "ab'c".data) :=
  ⟨apostrophe_variant_behavior.1 "abc".data (by decide),
   apostrophe_variant_behavior.2.1 "ab'c".data (by decide) (by decide)⟩

/-- The numeric value of a digit string, most significant first, as
`strconv.Atoi` accumulates it. -/
def digitsToNat : List Char → Nat → Nat
  | [], acc => acc
  | c :: rest, acc => digitsToNat rest (acc * 10 + (c.toNat - 48))

/-- Go `strconv.Atoi` (`ParseInt(s, 10, 0)` on a 64-bit platform): an
optional sign followed by at least one ASCII digit, rejecting values outside
the signed 64-bit range. -/
def atoiQ (s : List Char) : Option Int :=
  if s = [] then none
  else
    let sign : Int := if s.head? = some '-' then -1 else 1
    let digits := if s.head? = some '-' ∨ s.head? = some '+' then s.tail else s
    if digits = [] then none
    else if digits.all isDigitGo then
      let v : Int := sign * (digitsToNat digits 0 : Int)
      if -(2 ^ 63) ≤ v ∧ v ≤ 2 ^ 63 - 1 then some v else none
    else none

/-- `parseRangeFlag` (main.go:30-59): empty (after trimming) input yields the
defaults; otherwise the value must split on `-` into exactly two parts, each
parsing as a positive integer, with start ≤ end. -/
def parseRangeFlag (value : List Char) (defaultStart defaultEnd : Int) :
    Except Unit (Int × Int) :=
  if trimSpaceGo value = [] then .ok (defaultStart, defaultEnd)
  else
    match splitOnChar '-' value with
    | [p0, p1] =>
      match atoiQ (trimSpaceGo p0) with
      | none => .error ()
      | some a =>
        match atoiQ (trimSpaceGo p1) with
        | none => .error ()
        | some b =>
          if a ≤ 0 ∨ b ≤ 0 then .error ()
          else if b < a then .error ()
          else .ok (a, b)
    | _ => .error ()

/-- The claim's malformedness conditions, worded independently: not exactly
one `-` separator (counted directly on the value), a bound that does not
parse as an integer, a non-positive bound, or start > end. -/
def rangeFlagMalformed (value : List Char) : Bool :=
  decide (value.count '-' ≠ 1) ||
  (match splitOnChar '-' value with
   | [p0, p1] =>
     match atoiQ (trimSpaceGo p0), atoiQ (trimSpaceGo p1) with
     | some a, some b => decide (a ≤ 0) || decide (b ≤ 0) || decide (b < a)
     | _, _ => true
   | _ => true)

theorem splitOnCharAux_length (c : Char) : ∀ (s cur : List Char),
    (splitOnCharAux c cur s).length = s.count c + 1 := by
  intro s
  induction s with
  | nil => intro cur; simp [splitOnCharAux]
  | cons x rest ih =>
    intro cur
    by_cases hx : x = c
    · rw [splitOnCharAux, if_pos hx]
      simp [ih, List.count_cons, hx]
    · rw [splitOnCharAux, if_neg hx]
      simp [ih, List.count_cons, hx]

theorem splitOnChar_length (c : Char) (s : List Char) :
    (splitOnChar c s).length = s.count c + 1 :=
  splitOnCharAux_length c s []

example : parseRangeFlag "1-5".data 1 5 = .ok (1, 5) := by rfl
example : parseRangeFlag "  ".data 1 5 = .ok (1, 5) := by rfl
example : parseRangeFlag "5-1".data 1 5 = .error () := by rfl
example : parseRangeFlag "1-2-3".data 1 5 = .error () := by rfl
example : parseRangeFlag "0-5".data 1 5 = .error () := by rfl
example : parseRangeFlag "a-5".data 1 5 = .error () := by rfl

/-- C9: on a value that is nonempty after trimming, `parseRangeFlag` returns
an error exactly when the value is malformed in the claim's sense (not
exactly one `-` separator, a bound that does not parse as an integer, a
non-positive bound, or start > end); on success the returned bounds are the
two parsed parts and satisfy 0 < start ≤ end. -/
theorem parseRangeFlag_spec (value : List Char) (d1 d2 : Int)
    (hne : trimSpaceGo value ≠ []) :
    (parseRangeFlag value d1 d2 = .error () ↔
      rangeFlagMalformed value = true) ∧
    (∀ a b : Int, parseRangeFlag value d1 d2 = .ok (a, b) →
      0 < a ∧ 0 < b ∧ a ≤ b ∧
        atoiQ (trimSpaceGo ((splitOnChar '-' value).getD 0 [])) = some a ∧
        atoiQ (trimSpaceGo ((splitOnChar '-' value).getD 1 [])) = some b) := by
  have hcount : (splitOnChar '-' value).length = value.count '-' + 1 :=
    splitOnChar_length '-' value
  rw [parseRangeFlag, if_neg hne, rangeFlagMalformed]
  rcases hsplit : splitOnChar '-' value with - | ⟨p0, - | ⟨p1, - | ⟨p2, ps⟩⟩⟩
  · rw [hsplit] at hcount
    simp at hcount
  · rw [hsplit] at hcount
    simp only [List.length_cons, List.length_nil] at hcount
    refine ⟨by simp, ?_⟩
    intro a b hab
    simp at hab
  · rw [hsplit] at hcount
    simp only [List.length_cons, List.length_nil] at hcount
    have hc1 : value.count '-' = 1 := by omega
    rcases hq0 : atoiQ (trimSpaceGo p0) with - | a
    · refine ⟨by simp [hq0], ?_⟩
      intro a b hab
      simp [hq0] at hab
    · rcases hq1 : atoiQ (trimSpaceGo p1) with - | b
      · refine ⟨by simp [hq0, hq1], ?_⟩
        intro a' b' hab
        simp [hq0, hq1] at hab
      · by_cases ha0 : a ≤ 0
        · refine ⟨by simp [hq0, hq1, ha0, hc1], ?_⟩
          intro a' b' hab
          simp [hq0, hq1, ha0] at hab
        · by_cases hb0 : b ≤ 0
          · refine ⟨by simp [hq0, hq1, ha0, hb0, hc1], ?_⟩
            intro a' b' hab
            simp [hq0, hq1, ha0, hb0] at hab
          · by_cases hord : b < a
            · refine ⟨by simp [hq0, hq1, ha0, hb0, hord, hc1], ?_⟩
              intro a' b' hab
              simp [hq0, hq1, ha0, hb0, hord] at hab
            · refine ⟨by simp [hq0, hq1, ha0, hb0, hord, hc1], ?_⟩
              intro a' b' hab
              simp only [hq0, hq1] at hab
              rw [if_neg (by omega), if_neg hord] at hab
              cases hab
              refine ⟨by omega, by omega, by omega, ?_, ?_⟩
              · simpa using hq0
              · simpa using hq1
  · rw [hsplit] at hcount
    simp only [List.length_cons] at hcount
    refine ⟨?_, ?_⟩
    · simp only [Bool.or_eq_true, decide_eq_true_eq]
      constructor
      · intro _
        left
        omega
      · intro _
        trivial
    · intro a b hab
      simp at hab

/-- C9 witness: instantiations on a well-formed and a malformed value. -/
theorem parseRangeFlag_spec_witness :
    ((parseRangeFlag "2-3".data 1 5 = .error () ↔
      rangeFlagMalformed "2-3".data = true) ∧
    (∀ a b : Int, parseRangeFlag "2-3".data 1 5 = .ok (a, b) →
      0 < a ∧ 0 < b ∧ a ≤ b ∧
        atoiQ (trimSpaceGo ((splitOnChar '-' "2-3".data).getD 0 [])) = some a ∧
        atoiQ (trimSpaceGo ((splitOnChar '-' "2-3".data).getD 1 [])) = some b)) :=
  parseRangeFlag_spec "2-3".data 1 5 (by decide)

theorem mem_splitOnCharAux {c : Char} : ∀ (s cur part : List Char),
    part ∈ splitOnCharAux c cur s → ∀ x ∈ part, x ∈ cur ∨ x ∈ s := by
  intro s
  induction s with
  | nil =>
    intro cur part hp x hx
    simp only [splitOnCharAux, List.mem_singleton] at hp
    subst hp
    exact Or.inl hx
  | cons y rest ih =>
    intro cur part hp x hx
    rw [splitOnCharAux] at hp
    split at hp
    · rcases List.mem_cons.1 hp with rfl | hp'
      · exact Or.inl hx
      · rcases ih [] part hp' x hx with h | h
        · cases h
        · exact Or.inr (by simp [h])
    · rcases ih (cur ++ [y]) part hp x hx with h | h
      · rcases List.mem_append.1 h with h1 | h1
        · exact Or.inl h1
        · simp only [List.mem_singleton] at h1
          exact Or.inr (by simp [h1])
      · exact Or.inr (by simp [h])

theorem mem_scanLines {s l : List Char} (hl : l ∈ scanLines s) :
    ∀ c ∈ l, c ∈ s := by
  intro c hc
  rw [scanLines] at hl
  split at hl
  · simp at hl
  · split at hl
    · obtain ⟨p, hp, rfl⟩ := List.mem_map.1 hl
      have hp2 : p ∈ splitOnChar '\n' s :=
        (List.dropLast_sublist _).subset hp
      have hcp : c ∈ p := by
        rw [dropTrailingCR] at hc
        split at hc
        · exact (List.dropLast_sublist _).subset hc
        · exact hc
      rcases mem_splitOnCharAux s [] p hp2 c hcp with h | h
      · cases h
      · exact h
    · obtain ⟨p, hp, rfl⟩ := List.mem_map.1 hl
      have hcp : c ∈ p := by
        rw [dropTrailingCR] at hc
        split at hc
        · exact (List.dropLast_sublist _).subset hc
        · exact hc
      rcases mem_splitOnCharAux s [] p hp c hcp with h | h
      · cases h
      · exact h

theorem mem_trimRightWhile {p : Char → Bool} {l : List Char} {c : Char}
    (hc : c ∈ trimRightWhile p l) : c ∈ l := by
  rw [trimRightWhile] at hc
  rw [List.mem_reverse] at hc
  have := (List.dropWhile_sublist _).subset hc
  rwa [List.mem_reverse] at this

theorem ascii_removeTrailing {line : List Char}
    (h : ∀ c ∈ line, c.toNat < 128) :
    ∀ c ∈ removeTrailingNonLettersDigits line, c.toNat < 128 := by
  intro c hc
  rw [removeTrailingNonLettersDigits] at hc
  obtain ⟨l, hl, hcl⟩ := List.mem_flatMap.1 hc
  rcases List.mem_append.1 hcl with h1 | h1
  · exact h c (mem_scanLines hl c (mem_trimRightWhile h1))
  · simp only [List.mem_singleton] at h1
    subst h1
    decide

theorem ascii_removeLeading {line : List Char}
    (h : ∀ c ∈ line, c.toNat < 128) :
    ∀ c ∈ removeLeadingNonLettersDigits line, c.toNat < 128 := by
  intro c hc
  rw [removeLeadingNonLettersDigits] at hc
  obtain ⟨l, hl, hcl⟩ := List.mem_flatMap.1 hc
  rcases List.mem_append.1 hcl with h1 | h1
  · rw [trimLeftWhile] at h1
    exact h c (mem_scanLines hl c ((List.dropWhile_sublist _).subset h1))
  · simp only [List.mem_singleton] at h1
    subst h1
    decide

theorem filterLinesCfg_flag_independent (n1 n2 o1 o2 : Int) (b1 b2 : Bool)
    {data : List Char} (h : ∀ c ∈ data, c.toNat < 128) :
    filterLinesCfg ⟨n1, n2, o1, o2, b1⟩ data =
      filterLinesCfg ⟨n1, n2, o1, o2, b2⟩ data := by
  rw [filterLinesCfg, filterLinesCfg, List.flatMap_def, List.flatMap_def]
  refine congrArg List.flatten (List.map_congr_left ?_)
  intro l hl
  have hany : (l.any fun c => decide (128 ≤ c.toNat)) = false :=
    List.any_eq_false.2 (fun c hc => by
      simpa using Nat.not_le.2 (h c (mem_scanLines hl c hc)))
  simp only [hany, Bool.and_false]

/-- C10 counterexample (spec-modelled relaxation): on the all-Greek line
"ααααα" the strict classifier finds no ASCII vowel and rejects, while the
relaxed mode keeps the line, so the two runs of `TransformLine` differ. -/
theorem transformLine_flag_sensitive :
    TransformLine ⟨1, 5, 4, 32, true⟩ "ααααα".data ≠
      TransformLine ⟨1, 5, 4, 32, false⟩ "ααααα".data := by decide

/-- C10 (amended): `TransformLine` is independent of `IncludeNonLatin` on
every line containing only ASCII characters — no other stage of the line
pipeline reads the flag — while a line carried by non-ASCII letters can be
classified differently under the spec-modelled relaxation, so the
unrestricted two-run noninterference of the claim fails. -/
theorem transformLine_ascii_noninterference (n1 n2 o1 o2 : Int)
    (b1 b2 : Bool) (line : List Char)
    (hascii : ∀ c ∈ line, c.toNat < 128) :
    TransformLine ⟨n1, n2, o1, o2, b1⟩ line =
      TransformLine ⟨n1, n2, o1, o2, b2⟩ line := by
  rw [TransformLine, TransformLine]
  rw [filterLinesCfg_flag_independent n1 n2 o1 o2 b1 b2
    (ascii_removeLeading (ascii_removeTrailing hascii))]

/-- C10 witness: the amended noninterference at a concrete ASCII line. -/
theorem transformLine_ascii_noninterference_witness :
    TransformLine ⟨1, 5, 4, 32, true⟩ "hello world".data =
      TransformLine ⟨1, 5, 4, 32, false⟩ "hello world".data :=
  transformLine_ascii_noninterference 1 5 4 32 true false
    "hello world".data (by decide)

/-- The output strings a worker produces for one line: the newline-separated
entries of `TransformLine`'s result, which the worker writes to the sink as
one contiguous block (`writer.Write(processed)` then the newline) while
holding the write mutex (mutate_util.go:71-78). -/
def lineOutputs (cfg : Config) (line : List Char) : List (List Char) :=
  splitOnChar '\n' (TransformLine cfg line)

/-- A state of the unordered scheduler `ProcessStream` (mutate_util.go:25-122)
for safety reasoning.  `tasks` is the FIFO channel of unread line tasks,
tagged with their read index for attribution; `inFlight` holds results
computed by workers that have not yet acquired the write mutex (the worker
pool bounds how many exist at once, but the non-interleaving property does
not depend on that bound, so workers are modelled as carriers); `writing` is
the result currently being written by the single mutex holder; `output` is
the sink, one tagged string per write. -/
structure StreamState where
  tasks : List (Nat × List Char)
  inFlight : List (Nat × List (List Char))
  writing : Option (Nat × List (List Char))
  output : List (Nat × List Char)

/-- One transition of the unordered scheduler: a worker takes the next task
from the channel and either discards it (empty result, mutate_util.go:67-69)
or finishes computing it; a worker with a computed result acquires the free
mutex; the mutex holder writes its next output string; the mutex holder
finishes its block and releases the mutex. -/
inductive StreamStep (cfg : Config) : StreamState → StreamState → Prop where
  | takeEmpty (t : Nat × List Char) (rest : List (Nat × List Char)) (q w out) :
      TransformLine cfg t.2 = [] →
      StreamStep cfg ⟨t :: rest, q, w, out⟩ ⟨rest, q, w, out⟩
  | takeCompute (t : Nat × List Char) (rest : List (Nat × List Char)) (q w out) :
      TransformLine cfg t.2 ≠ [] →
      StreamStep cfg ⟨t :: rest, q, w, out⟩
        ⟨rest, q ++ [(t.1, lineOutputs cfg t.2)], w, out⟩
  | acquire (tasks q1 q2 : List _) (r : Nat × List (List Char)) (out) :
      StreamStep cfg ⟨tasks, q1 ++ r :: q2, none, out⟩
        ⟨tasks, q1 ++ q2, some r, out⟩
  | writeOne (tasks q : List _) (id : Nat) (s : List Char)
      (rem : List (List Char)) (out) :
      StreamStep cfg ⟨tasks, q, some (id, s :: rem), out⟩
        ⟨tasks, q, some (id, rem), out ++ [(id, s)]⟩
  | release (tasks q : List _) (id : Nat) (out) :
      StreamStep cfg ⟨tasks, q, some (id, []), out⟩
        ⟨tasks, q, none, out⟩

/-- The initial scheduler state for a given tagged input. -/
def initState (input : List (Nat × List Char)) : StreamState :=
  ⟨input, [], none, []⟩

/-- The line tags of the written output, in write order. -/
def outIds (s : StreamState) : List Nat := s.output.map Prod.fst

/-- The line tags not yet fully written: tasks still in the channel, results
in flight, and the result being written. -/
def pendingIds (s : StreamState) : List Nat :=
  s.tasks.map Prod.fst ++ s.inFlight.map Prod.fst ++
    (s.writing.map Prod.fst).toList

/-- No interleaving: between two output entries of one line there is never
an entry of another line. -/
def NoInterleave (l : List Nat) : Prop :=
  ∀ (p q r t : List Nat) (x y z : Nat),
    l = p ++ x :: q ++ y :: r ++ z :: t → x = z → y = x

/-- All occurrences of `id` in `l` form a suffix of `l`. -/
def SuffixRun (id : Nat) (l : List Nat) : Prop :=
  ∃ p r, l = p ++ r ∧ id ∉ p ∧ ∀ x ∈ r, x = id

theorem noInterleave_nil : NoInterleave [] := by
  intro p q r t x y z he
  exfalso
  simp at he

theorem suffixRun_of_not_mem {id : Nat} {l : List Nat} (h : id ∉ l) :
    SuffixRun id l :=
  ⟨l, [], by simp, h, by simp⟩

theorem suffixRun_snoc {id : Nat} {l : List Nat} (h : SuffixRun id l) :
    SuffixRun id (l ++ [id]) := by
  obtain ⟨p, r, rfl, hnp, hr⟩ := h
  refine ⟨p, r ++ [id], by simp, hnp, ?_⟩
  intro x hx
  rcases List.mem_append.1 hx with h1 | h1
  · exact hr x h1
  · simpa using h1

theorem snoc_inj {M N : List Nat} {a b : Nat} (h : M ++ [a] = N ++ [b]) :
    M = N ∧ a = b := by
  constructor
  · have := congrArg List.dropLast h
    simpa using this
  · have := congrArg List.getLast? h
    simpa [List.getLast?_concat] using this

theorem suffixRun_all_after {id : Nat} {l a b : List Nat}
    (hs : SuffixRun id l) (he : l = a ++ id :: b) : ∀ w ∈ b, w = id := by
  obtain ⟨p, r, rfl, hnp, hr⟩ := hs
  rw [List.append_eq_append_iff] at he
  rcases he with ⟨k, hk1, hk2⟩ | ⟨k, hk1, hk2⟩
  · intro w hw
    exact hr w (by rw [hk2]; simp [hw])
  · cases k with
    | nil =>
      intro w hw
      simp only [List.nil_append] at hk2
      exact hr w (by rw [← hk2]; simp [hw])
    | cons c0 k' =>
      exfalso
      have hc0 : c0 = id := by
        have := congrArg List.head? hk2
        simpa using this.symm
      subst hc0
      exact hnp (by rw [hk1]; simp)

theorem noInterleave_snoc {id : Nat} {l : List Nat}
    (hn : NoInterleave l) (hs : SuffixRun id l) :
    NoInterleave (l ++ [id]) := by
  intro p q r t x y z he hxz
  rcases List.eq_nil_or_concat t with rfl | ⟨t', a, rfl⟩
  · have he' : l ++ [id] = ((p ++ x :: q) ++ y :: r) ++ [z] := by
      rw [he]
    obtain ⟨hl, hid⟩ := snoc_inj he'
    have hx : x = id := by rw [hxz, ← hid]
    have hshape : l = p ++ id :: (q ++ y :: r) := by
      rw [hl, hx]
      simp [List.append_assoc]
    have hy := suffixRun_all_after hs hshape y (by simp)
    rw [hy, hx]
  · have he' : l ++ [id] = (((p ++ x :: q) ++ y :: r) ++ z :: t') ++ [a] := by
      rw [he]
      simp [List.append_assoc, List.concat_eq_append]
    obtain ⟨hl, -⟩ := snoc_inj he'
    exact hn p q r t' x y z hl hxz

/-- The safety invariant of the unordered scheduler: pending line tags are
distinct, the written tags are never interleaved, and while a worker holds
the write mutex the occurrences of its tag form a suffix of the output and
every other pending tag is absent from the output (with the mutex free,
every pending tag is absent). -/
def StreamInv (s : StreamState) : Prop :=
  (pendingIds s).Nodup ∧ NoInterleave (outIds s) ∧
  (match s.writing with
   | none => ∀ id ∈ pendingIds s, id ∉ outIds s
   | some (id, _) => SuffixRun id (outIds s) ∧
       ∀ id' ∈ pendingIds s, id' ≠ id → id' ∉ outIds s)

theorem streamInv_init (input : List (Nat × List Char))
    (hids : (input.map Prod.fst).Nodup) : StreamInv (initState input) := by
  refine ⟨?_, noInterleave_nil, ?_⟩
  · simpa [pendingIds, initState] using hids
  · show ∀ id ∈ pendingIds (initState input), id ∉ outIds (initState input)
    simp [outIds, initState]

theorem streamInv_step {cfg : Config} {s s' : StreamState}
    (hinv : StreamInv s) (hstep : StreamStep cfg s s') : StreamInv s' := by
  obtain ⟨hnd, hni, hw⟩ := hinv
  cases hstep with
  | takeEmpty t rest q w out hte =>
    have hpend : pendingIds ⟨t :: rest, q, w, out⟩ =
        t.1 :: pendingIds ⟨rest, q, w, out⟩ := by
      simp [pendingIds]
    refine ⟨?_, hni, ?_⟩
    · rw [hpend] at hnd
      exact hnd.of_cons
    · cases w with
      | none =>
        have hw' : ∀ id ∈ pendingIds ⟨t :: rest, q, none, out⟩,
            id ∉ outIds ⟨t :: rest, q, none, out⟩ := hw
        show ∀ id ∈ pendingIds ⟨rest, q, none, out⟩,
          id ∉ outIds ⟨rest, q, none, out⟩
        intro id hid
        exact hw' id (by rw [hpend]; exact List.mem_cons_of_mem _ hid)
      | some rr =>
        obtain ⟨wid, wrem⟩ := rr
        have hw' : SuffixRun wid (outIds ⟨t :: rest, q, some (wid, wrem), out⟩) ∧
            ∀ id' ∈ pendingIds ⟨t :: rest, q, some (wid, wrem), out⟩,
              id' ≠ wid → id' ∉ outIds ⟨t :: rest, q, some (wid, wrem), out⟩ := hw
        show SuffixRun wid (outIds ⟨rest, q, some (wid, wrem), out⟩) ∧
            ∀ id' ∈ pendingIds ⟨rest, q, some (wid, wrem), out⟩,
              id' ≠ wid → id' ∉ outIds ⟨rest, q, some (wid, wrem), out⟩
        refine ⟨hw'.1, ?_⟩
        intro id' hid' hne
        exact hw'.2 id' (by rw [hpend]; exact List.mem_cons_of_mem _ hid') hne
  | takeCompute t rest q w out htc =>
    have h1 : pendingIds ⟨rest, q ++ [(t.1, lineOutputs cfg t.2)], w, out⟩ =
        (rest.map Prod.fst ++ q.map Prod.fst) ++
          t.1 :: (w.map Prod.fst).toList := by
      simp [pendingIds, List.append_assoc]
    have h2 : pendingIds ⟨t :: rest, q, w, out⟩ =
        t.1 :: ((rest.map Prod.fst ++ q.map Prod.fst) ++
          (w.map Prod.fst).toList) := by
      simp [pendingIds, List.append_assoc]
    have hperm : List.Perm
        (pendingIds ⟨rest, q ++ [(t.1, lineOutputs cfg t.2)], w, out⟩)
        (pendingIds ⟨t :: rest, q, w, out⟩) := by
      rw [h1, h2]
      exact List.perm_middle
    refine ⟨hperm.symm.nodup hnd, hni, ?_⟩
    cases w with
    | none =>
      have hw' : ∀ id ∈ pendingIds ⟨t :: rest, q, none, out⟩,
          id ∉ outIds ⟨t :: rest, q, none, out⟩ := hw
      show ∀ id ∈ pendingIds
          ⟨rest, q ++ [(t.1, lineOutputs cfg t.2)], none, out⟩,
        id ∉ outIds ⟨rest, q ++ [(t.1, lineOutputs cfg t.2)], none, out⟩
      intro id hid
      exact hw' id (hperm.subset hid)
    | some rr =>
      obtain ⟨wid, wrem⟩ := rr
      have hw' : SuffixRun wid
          (outIds ⟨t :: rest, q, some (wid, wrem), out⟩) ∧
          ∀ id' ∈ pendingIds ⟨t :: rest, q, some (wid, wrem), out⟩,
            id' ≠ wid →
              id' ∉ outIds ⟨t :: rest, q, some (wid, wrem), out⟩ := hw
      show SuffixRun wid (outIds
          ⟨rest, q ++ [(t.1, lineOutputs cfg t.2)], some (wid, wrem), out⟩) ∧
          ∀ id' ∈ pendingIds
            ⟨rest, q ++ [(t.1, lineOutputs cfg t.2)], some (wid, wrem), out⟩,
            id' ≠ wid → id' ∉ outIds
              ⟨rest, q ++ [(t.1, lineOutputs cfg t.2)], some (wid, wrem), out⟩
      refine ⟨hw'.1, ?_⟩
      intro id' hid' hne
      exact hw'.2 id' (hperm.subset hid') hne
  | acquire tasks q1 q2 r out =>
    obtain ⟨rid, router⟩ := r
    have hw' : ∀ id ∈ pendingIds ⟨tasks, q1 ++ (rid, router) :: q2, none, out⟩,
        id ∉ outIds ⟨tasks, q1 ++ (rid, router) :: q2, none, out⟩ := hw
    have h1 : pendingIds ⟨tasks, q1 ++ q2, some (rid, router), out⟩ =
        ((tasks.map Prod.fst ++ q1.map Prod.fst) ++ q2.map Prod.fst) ++
          [rid] := by
      simp [pendingIds, List.append_assoc]
    have h2 : pendingIds ⟨tasks, q1 ++ (rid, router) :: q2, none, out⟩ =
        (tasks.map Prod.fst ++ q1.map Prod.fst) ++ rid :: q2.map Prod.fst := by
      simp [pendingIds, List.append_assoc]
    have hperm : List.Perm
        (pendingIds ⟨tasks, q1 ++ q2, some (rid, router), out⟩)
        (pendingIds ⟨tasks, q1 ++ (rid, router) :: q2, none, out⟩) := by
      rw [h1, h2]
      exact (List.perm_append_singleton _ _).trans List.perm_middle.symm
    refine ⟨hperm.symm.nodup hnd, hni, ?_⟩
    have hrmem : rid ∈ pendingIds ⟨tasks, q1 ++ (rid, router) :: q2, none, out⟩ := by
      simp [pendingIds]
    show SuffixRun rid (outIds ⟨tasks, q1 ++ q2, some (rid, router), out⟩) ∧
        ∀ id' ∈ pendingIds ⟨tasks, q1 ++ q2, some (rid, router), out⟩,
          id' ≠ rid → id' ∉ outIds ⟨tasks, q1 ++ q2, some (rid, router), out⟩
    refine ⟨suffixRun_of_not_mem (hw' rid hrmem), ?_⟩
    intro id' hid' _
    exact hw' id' (hperm.subset hid')
  | writeOne tasks q wid str rem out =>
    have hw' : SuffixRun wid (outIds ⟨tasks, q, some (wid, str :: rem), out⟩) ∧
        ∀ id' ∈ pendingIds ⟨tasks, q, some (wid, str :: rem), out⟩,
          id' ≠ wid →
            id' ∉ outIds ⟨tasks, q, some (wid, str :: rem), out⟩ := hw
    have hout : outIds ⟨tasks, q, some (wid, rem), out ++ [(wid, str)]⟩ =
        outIds ⟨tasks, q, some (wid, str :: rem), out⟩ ++ [wid] := by
      simp [outIds]
    refine ⟨hnd, ?_, ?_⟩
    · rw [hout]
      exact noInterleave_snoc hni hw'.1
    · show SuffixRun wid
          (outIds ⟨tasks, q, some (wid, rem), out ++ [(wid, str)]⟩) ∧
        ∀ id' ∈ pendingIds ⟨tasks, q, some (wid, rem), out ++ [(wid, str)]⟩,
          id' ≠ wid →
            id' ∉ outIds ⟨tasks, q, some (wid, rem), out ++ [(wid, str)]⟩
      refine ⟨by rw [hout]; exact suffixRun_snoc hw'.1, ?_⟩
      intro id' hid' hne
      rw [hout]
      intro hmem
      rcases List.mem_append.1 hmem with hm | hm
      · exact hw'.2 id' hid' hne hm
      · simp only [List.mem_singleton] at hm
        exact hne hm
  | release tasks q wid out =>
    have hw' : SuffixRun wid (outIds ⟨tasks, q, some (wid, []), out⟩) ∧
        ∀ id' ∈ pendingIds ⟨tasks, q, some (wid, []), out⟩,
          id' ≠ wid → id' ∉ outIds ⟨tasks, q, some (wid, []), out⟩ := hw
    have h2 : pendingIds ⟨tasks, q, some (wid, []), out⟩ =
        (tasks.map Prod.fst ++ q.map Prod.fst) ++ [wid] := by
      simp [pendingIds, List.append_assoc]
    have h3 : pendingIds ⟨tasks, q, none, out⟩ =
        tasks.map Prod.fst ++ q.map Prod.fst := by
      simp [pendingIds]
    have hnotin : wid ∉ tasks.map Prod.fst ++ q.map Prod.fst := by
      have hpm := List.perm_append_singleton wid
        (tasks.map Prod.fst ++ q.map Prod.fst)
      have hnodup := hpm.nodup (h2 ▸ hnd)
      exact (List.nodup_cons.1 hnodup).1
    refine ⟨?_, hni, ?_⟩
    · rw [h3]
      exact List.Nodup.sublist (List.sublist_append_left _ _) (h2 ▸ hnd)
    · show ∀ id ∈ pendingIds ⟨tasks, q, none, out⟩,
        id ∉ outIds ⟨tasks, q, none, out⟩
      intro id' hid'
      rw [h3] at hid'
      have hne : id' ≠ wid := by
        intro heq
        rw [heq] at hid'
        exact hnotin hid'
      exact hw'.2 id' (by rw [h2]; exact List.mem_append.2 (Or.inl hid')) hne

/-- C2: under the unordered scheduler, in every reachable state the output
strings of one line are contiguous in the sink — no string of another line
sits between two strings of the same line — provided the reader tags lines
with distinct indices (it assigns strictly increasing ones).  Inter-line
order is unconstrained by the step relation. -/
theorem processStream_no_interleave (cfg : Config)
    (input : List (Nat × List Char)) (hids : (input.map Prod.fst).Nodup)
    (s : StreamState)
    (hreach : Relation.ReflTransGen (StreamStep cfg) (initState input) s) :
    NoInterleave (outIds s) := by
  have hinv : StreamInv s := by
    induction hreach with
    | refl => exact streamInv_init input hids
    | tail hsteps hstep ih => exact streamInv_step ih hstep
  exact hinv.2.1

theorem processStream_no_interleave_witness :
    (([(0, "hello world".data)].map Prod.fst).Nodup) ∧
    Relation.ReflTransGen (StreamStep ⟨1, 5, 4, 32, false⟩)
      (initState [(0, "hello world".data)])
      ⟨[], [], none,
        [(0, "hello".data), (0, "world".data), (0, "HelloWorld".data)]⟩ ∧
    NoInterleave (outIds ⟨[], [], none,
      [(0, "hello".data), (0, "world".data), (0, "HelloWorld".data)]⟩) := by
  have h1 : StreamStep (⟨1, 5, 4, 32, false⟩ : Config)
      ⟨[(0, "hello world".data)], [], none, []⟩
      ⟨[], [(0, ["hello".data, "world".data, "HelloWorld".data])], none, []⟩ :=
    StreamStep.takeCompute (0, "hello world".data) [] [] none [] (by decide)
  have h2 : StreamStep (⟨1, 5, 4, 32, false⟩ : Config)
      ⟨[], [(0, ["hello".data, "world".data, "HelloWorld".data])], none, []⟩
      ⟨[], [], some (0, ["hello".data, "world".data, "HelloWorld".data]), []⟩ :=
    StreamStep.acquire [] [] [] (0, ["hello".data, "world".data, "HelloWorld".data]) []
  have h3 : StreamStep (⟨1, 5, 4, 32, false⟩ : Config)
      ⟨[], [], some (0, ["hello".data, "world".data, "HelloWorld".data]), []⟩
      ⟨[], [], some (0, ["world".data, "HelloWorld".data]), [(0, "hello".data)]⟩ :=
    StreamStep.writeOne [] [] 0 "hello".data ["world".data, "HelloWorld".data] []
  have h4 : StreamStep (⟨1, 5, 4, 32, false⟩ : Config)
      ⟨[], [], some (0, ["world".data, "HelloWorld".data]), [(0, "hello".data)]⟩
      ⟨[], [], some (0, ["HelloWorld".data]),
        [(0, "hello".data), (0, "world".data)]⟩ :=
    StreamStep.writeOne [] [] 0 "world".data ["HelloWorld".data] [(0, "hello".data)]
  have h5 : StreamStep (⟨1, 5, 4, 32, false⟩ : Config)
      ⟨[], [], some (0, ["HelloWorld".data]),
        [(0, "hello".data), (0, "world".data)]⟩
      ⟨[], [], some (0, []),
        [(0, "hello".data), (0, "world".data), (0, "HelloWorld".data)]⟩ :=
    StreamStep.writeOne [] [] 0 "HelloWorld".data []
      [(0, "hello".data), (0, "world".data)]
  have h6 : StreamStep (⟨1, 5, 4, 32, false⟩ : Config)
      ⟨[], [], some (0, []),
        [(0, "hello".data), (0, "world".data), (0, "HelloWorld".data)]⟩
      ⟨[], [], none,
        [(0, "hello".data), (0, "world".data), (0, "HelloWorld".data)]⟩ :=
    StreamStep.release [] [] 0
      [(0, "hello".data), (0, "world".data), (0, "HelloWorld".data)]
  have hreach : Relation.ReflTransGen (StreamStep (⟨1, 5, 4, 32, false⟩ : Config))
      (initState [(0, "hello world".data)])
      ⟨[], [], none,
        [(0, "hello".data), (0, "world".data), (0, "HelloWorld".data)]⟩ :=
    ((((((Relation.ReflTransGen.refl).tail h1).tail h2).tail h3).tail h4).tail
      h5).tail h6
  exact ⟨by decide, hreach,
    processStream_no_interleave ⟨1, 5, 4, 32, false⟩
      [(0, "hello world".data)] (by decide) _ hreach⟩
